import Mathlib

set_option linter.dupNamespace false

/-!
# go-enum: the directive scanner and the generator

A shallow embedding of `ParseEnums` and `parseEnumComment`
(`internal/parser/parser.go`) and of `GenerateEnum`, `fileContainsHeader` and
`defaultFor` (`internal/generator/generator.go`), and the properties of the
directive grammar, of the value-derivation policy, of the scan and of the
regeneration guard proved on it.

## Strings

A Go string is modelled by its sequence of runes (`List Char`), which is what
`[]rune(s)` gives in Go.  The comment texts come out of `go/parser`, which
refuses a file that is not valid UTF-8, so that nothing is lost by this.  The
one byte-indexed operation of the source, the slice `s[7:]`, is modelled by
`sliceFrom`, which counts the bytes of every rune.
-/

namespace GoEnum

/-- A Go string, as its sequence of runes. -/
abbrev GoString := List Char

/-! ## The library functions the scanner calls -/

/-- `unicode.IsSpace`: the white space runes of Unicode
(`'\t'`, `'\n'`, `'\v'`, `'\f'`, `'\r'`, `' '`, U+0085, U+00A0 and the runes of
category Z or property Pattern_White_Space). -/
def isSpace (c : Char) : Bool :=
  let n := c.toNat
  (9 ≤ n && n ≤ 13) || n == 0x20 || n == 0x85 || n == 0xA0 || n == 0x1680 ||
    (0x2000 ≤ n && n ≤ 0x200A) || n == 0x2028 || n == 0x2029 || n == 0x202F ||
    n == 0x205F || n == 0x3000

/-- `strings.TrimSpace`: the string without its leading and trailing white space. -/
def TrimSpace (s : GoString) : GoString :=
  (s.dropWhile isSpace).rdropWhile isSpace

/-- `strings.Trim(s, cutset)`: the string without its leading and trailing runes
that occur in `cutset`. -/
def Trim (s cutset : GoString) : GoString :=
  (s.dropWhile (fun c => decide (c ∈ cutset))).rdropWhile (fun c => decide (c ∈ cutset))

/-- The lower-case mappings of the runes outside ASCII, as `unicode.ToLower` takes
them from `unicode.CaseRanges`: the simple lower-case mappings of the Unicode
Character Database (version 14.0). A run `(lo, hi, step, target)` maps the runes
`lo`, `lo + step`, ... up to `hi` to `target`, `target + step`, ...; a rune
in no run is its own lower-case form. -/
def lowerRuns : List (Nat × Nat × Nat × Nat) :=
  [
    (0x00C0, 0x00D6, 1, 0x00E0), (0x00D8, 0x00DE, 1, 0x00F8), (0x0100, 0x012E, 2, 0x0101),
    (0x0130, 0x0130, 1, 0x0069), (0x0132, 0x0136, 2, 0x0133), (0x0139, 0x0147, 2, 0x013A),
    (0x014A, 0x0176, 2, 0x014B), (0x0178, 0x0178, 1, 0x00FF), (0x0179, 0x017D, 2, 0x017A),
    (0x0181, 0x0181, 1, 0x0253), (0x0182, 0x0184, 2, 0x0183), (0x0186, 0x0186, 1, 0x0254),
    (0x0187, 0x0187, 1, 0x0188), (0x0189, 0x018A, 1, 0x0256), (0x018B, 0x018B, 1, 0x018C),
    (0x018E, 0x018E, 1, 0x01DD), (0x018F, 0x018F, 1, 0x0259), (0x0190, 0x0190, 1, 0x025B),
    (0x0191, 0x0191, 1, 0x0192), (0x0193, 0x0193, 1, 0x0260), (0x0194, 0x0194, 1, 0x0263),
    (0x0196, 0x0196, 1, 0x0269), (0x0197, 0x0197, 1, 0x0268), (0x0198, 0x0198, 1, 0x0199),
    (0x019C, 0x019C, 1, 0x026F), (0x019D, 0x019D, 1, 0x0272), (0x019F, 0x019F, 1, 0x0275),
    (0x01A0, 0x01A4, 2, 0x01A1), (0x01A6, 0x01A6, 1, 0x0280), (0x01A7, 0x01A7, 1, 0x01A8),
    (0x01A9, 0x01A9, 1, 0x0283), (0x01AC, 0x01AC, 1, 0x01AD), (0x01AE, 0x01AE, 1, 0x0288),
    (0x01AF, 0x01AF, 1, 0x01B0), (0x01B1, 0x01B2, 1, 0x028A), (0x01B3, 0x01B5, 2, 0x01B4),
    (0x01B7, 0x01B7, 1, 0x0292), (0x01B8, 0x01B8, 1, 0x01B9), (0x01BC, 0x01BC, 1, 0x01BD),
    (0x01C4, 0x01C4, 1, 0x01C6), (0x01C5, 0x01C5, 1, 0x01C6), (0x01C7, 0x01C7, 1, 0x01C9),
    (0x01C8, 0x01C8, 1, 0x01C9), (0x01CA, 0x01CA, 1, 0x01CC), (0x01CB, 0x01DB, 2, 0x01CC),
    (0x01DE, 0x01EE, 2, 0x01DF), (0x01F1, 0x01F1, 1, 0x01F3), (0x01F2, 0x01F4, 2, 0x01F3),
    (0x01F6, 0x01F6, 1, 0x0195), (0x01F7, 0x01F7, 1, 0x01BF), (0x01F8, 0x021E, 2, 0x01F9),
    (0x0220, 0x0220, 1, 0x019E), (0x0222, 0x0232, 2, 0x0223), (0x023A, 0x023A, 1, 0x2C65),
    (0x023B, 0x023B, 1, 0x023C), (0x023D, 0x023D, 1, 0x019A), (0x023E, 0x023E, 1, 0x2C66),
    (0x0241, 0x0241, 1, 0x0242), (0x0243, 0x0243, 1, 0x0180), (0x0244, 0x0244, 1, 0x0289),
    (0x0245, 0x0245, 1, 0x028C), (0x0246, 0x024E, 2, 0x0247), (0x0370, 0x0372, 2, 0x0371),
    (0x0376, 0x0376, 1, 0x0377), (0x037F, 0x037F, 1, 0x03F3), (0x0386, 0x0386, 1, 0x03AC),
    (0x0388, 0x038A, 1, 0x03AD), (0x038C, 0x038C, 1, 0x03CC), (0x038E, 0x038F, 1, 0x03CD),
    (0x0391, 0x03A1, 1, 0x03B1), (0x03A3, 0x03AB, 1, 0x03C3), (0x03CF, 0x03CF, 1, 0x03D7),
    (0x03D8, 0x03EE, 2, 0x03D9), (0x03F4, 0x03F4, 1, 0x03B8), (0x03F7, 0x03F7, 1, 0x03F8),
    (0x03F9, 0x03F9, 1, 0x03F2), (0x03FA, 0x03FA, 1, 0x03FB), (0x03FD, 0x03FF, 1, 0x037B),
    (0x0400, 0x040F, 1, 0x0450), (0x0410, 0x042F, 1, 0x0430), (0x0460, 0x0480, 2, 0x0461),
    (0x048A, 0x04BE, 2, 0x048B), (0x04C0, 0x04C0, 1, 0x04CF), (0x04C1, 0x04CD, 2, 0x04C2),
    (0x04D0, 0x052E, 2, 0x04D1), (0x0531, 0x0556, 1, 0x0561), (0x10A0, 0x10C5, 1, 0x2D00),
    (0x10C7, 0x10C7, 1, 0x2D27), (0x10CD, 0x10CD, 1, 0x2D2D), (0x13A0, 0x13EF, 1, 0xAB70),
    (0x13F0, 0x13F5, 1, 0x13F8), (0x1C90, 0x1CBA, 1, 0x10D0), (0x1CBD, 0x1CBF, 1, 0x10FD),
    (0x1E00, 0x1E94, 2, 0x1E01), (0x1E9E, 0x1E9E, 1, 0x00DF), (0x1EA0, 0x1EFE, 2, 0x1EA1),
    (0x1F08, 0x1F0F, 1, 0x1F00), (0x1F18, 0x1F1D, 1, 0x1F10), (0x1F28, 0x1F2F, 1, 0x1F20),
    (0x1F38, 0x1F3F, 1, 0x1F30), (0x1F48, 0x1F4D, 1, 0x1F40), (0x1F59, 0x1F5F, 2, 0x1F51),
    (0x1F68, 0x1F6F, 1, 0x1F60), (0x1F88, 0x1F8F, 1, 0x1F80), (0x1F98, 0x1F9F, 1, 0x1F90),
    (0x1FA8, 0x1FAF, 1, 0x1FA0), (0x1FB8, 0x1FB9, 1, 0x1FB0), (0x1FBA, 0x1FBB, 1, 0x1F70),
    (0x1FBC, 0x1FBC, 1, 0x1FB3), (0x1FC8, 0x1FCB, 1, 0x1F72), (0x1FCC, 0x1FCC, 1, 0x1FC3),
    (0x1FD8, 0x1FD9, 1, 0x1FD0), (0x1FDA, 0x1FDB, 1, 0x1F76), (0x1FE8, 0x1FE9, 1, 0x1FE0),
    (0x1FEA, 0x1FEB, 1, 0x1F7A), (0x1FEC, 0x1FEC, 1, 0x1FE5), (0x1FF8, 0x1FF9, 1, 0x1F78),
    (0x1FFA, 0x1FFB, 1, 0x1F7C), (0x1FFC, 0x1FFC, 1, 0x1FF3), (0x2126, 0x2126, 1, 0x03C9),
    (0x212A, 0x212A, 1, 0x006B), (0x212B, 0x212B, 1, 0x00E5), (0x2132, 0x2132, 1, 0x214E),
    (0x2160, 0x216F, 1, 0x2170), (0x2183, 0x2183, 1, 0x2184), (0x24B6, 0x24CF, 1, 0x24D0),
    (0x2C00, 0x2C2F, 1, 0x2C30), (0x2C60, 0x2C60, 1, 0x2C61), (0x2C62, 0x2C62, 1, 0x026B),
    (0x2C63, 0x2C63, 1, 0x1D7D), (0x2C64, 0x2C64, 1, 0x027D), (0x2C67, 0x2C6B, 2, 0x2C68),
    (0x2C6D, 0x2C6D, 1, 0x0251), (0x2C6E, 0x2C6E, 1, 0x0271), (0x2C6F, 0x2C6F, 1, 0x0250),
    (0x2C70, 0x2C70, 1, 0x0252), (0x2C72, 0x2C72, 1, 0x2C73), (0x2C75, 0x2C75, 1, 0x2C76),
    (0x2C7E, 0x2C7F, 1, 0x023F), (0x2C80, 0x2CE2, 2, 0x2C81), (0x2CEB, 0x2CED, 2, 0x2CEC),
    (0x2CF2, 0x2CF2, 1, 0x2CF3), (0xA640, 0xA66C, 2, 0xA641), (0xA680, 0xA69A, 2, 0xA681),
    (0xA722, 0xA72E, 2, 0xA723), (0xA732, 0xA76E, 2, 0xA733), (0xA779, 0xA77B, 2, 0xA77A),
    (0xA77D, 0xA77D, 1, 0x1D79), (0xA77E, 0xA786, 2, 0xA77F), (0xA78B, 0xA78B, 1, 0xA78C),
    (0xA78D, 0xA78D, 1, 0x0265), (0xA790, 0xA792, 2, 0xA791), (0xA796, 0xA7A8, 2, 0xA797),
    (0xA7AA, 0xA7AA, 1, 0x0266), (0xA7AB, 0xA7AB, 1, 0x025C), (0xA7AC, 0xA7AC, 1, 0x0261),
    (0xA7AD, 0xA7AD, 1, 0x026C), (0xA7AE, 0xA7AE, 1, 0x026A), (0xA7B0, 0xA7B0, 1, 0x029E),
    (0xA7B1, 0xA7B1, 1, 0x0287), (0xA7B2, 0xA7B2, 1, 0x029D), (0xA7B3, 0xA7B3, 1, 0xAB53),
    (0xA7B4, 0xA7C2, 2, 0xA7B5), (0xA7C4, 0xA7C4, 1, 0xA794), (0xA7C5, 0xA7C5, 1, 0x0282),
    (0xA7C6, 0xA7C6, 1, 0x1D8E), (0xA7C7, 0xA7C9, 2, 0xA7C8), (0xA7D0, 0xA7D0, 1, 0xA7D1),
    (0xA7D6, 0xA7D8, 2, 0xA7D7), (0xA7F5, 0xA7F5, 1, 0xA7F6), (0xFF21, 0xFF3A, 1, 0xFF41),
    (0x10400, 0x10427, 1, 0x10428), (0x104B0, 0x104D3, 1, 0x104D8),
    (0x10570, 0x1057A, 1, 0x10597), (0x1057C, 0x1058A, 1, 0x105A3),
    (0x1058C, 0x10592, 1, 0x105B3), (0x10594, 0x10595, 1, 0x105BB),
    (0x10C80, 0x10CB2, 1, 0x10CC0), (0x118A0, 0x118BF, 1, 0x118C0),
    (0x16E40, 0x16E5F, 1, 0x16E60), (0x1E900, 0x1E921, 1, 0x1E922)]

/-- Whether the rune with the number `n` is one of the runes that a run maps. -/
def runCovers (r : Nat × Nat × Nat × Nat) (n : Nat) : Bool :=
  decide (r.1 ≤ n ∧ n ≤ r.2.1 ∧ (n - r.1) % r.2.2.1 = 0)

/-- `unicode.ToLower`: the lower-case form of a rune. The letters `A`..`Z` are
mapped to `a`..`z` and the other ASCII runes are kept; a rune outside ASCII is
looked up in the case ranges. -/
def toLowerRune (c : Char) : Char :=
  if c.toNat < 128 then
    if 65 ≤ c.toNat ∧ c.toNat ≤ 90 then Char.ofNat (c.toNat + 32) else c
  else
    match lowerRuns.find? (fun r => runCovers r c.toNat) with
    | some r => Char.ofNat (r.2.2.2 + (c.toNat - r.1))
    | none => c

/-- Whether no white space rune has its number between `lo` and `hi`. -/
def spaceFree (lo hi : Nat) : Bool :=
  decide ((hi < 9 ∨ 13 < lo) ∧ (hi < 0x20 ∨ 0x20 < lo) ∧ (hi < 0x85 ∨ 0x85 < lo) ∧
    (hi < 0xA0 ∨ 0xA0 < lo) ∧ (hi < 0x1680 ∨ 0x1680 < lo) ∧ (hi < 0x2000 ∨ 0x200A < lo) ∧
    (hi < 0x2028 ∨ 0x2029 < lo) ∧ (hi < 0x202F ∨ 0x202F < lo) ∧
    (hi < 0x205F ∨ 0x205F < lo) ∧ (hi < 0x3000 ∨ 0x3000 < lo))

/-- The check of a run: its step is 1 or 2, it maps runes outside ASCII, the
runes it maps to are valid and not below `a`, and neither the runes it maps nor
the runes it maps to are white space. -/
def runOk (r : Nat × Nat × Nat × Nat) : Bool :=
  decide ((r.2.2.1 = 1 ∨ r.2.2.1 = 2) ∧ 128 ≤ r.1 ∧ r.1 ≤ r.2.1 ∧ 97 ≤ r.2.2.2 ∧
    (r.2.2.2 + (r.2.1 - r.1) < 0xD800 ∨
      (0xDFFF < r.2.2.2 ∧ r.2.2.2 + (r.2.1 - r.1) < 0x110000))) &&
    spaceFree r.1 r.2.1 && spaceFree r.2.2.2 (r.2.2.2 + (r.2.1 - r.1))

/-- The check of two runs: no rune that `r` maps to is a rune that `q` maps. -/
def runApart (r q : Nat × Nat × Nat × Nat) : Bool :=
  decide (r.2.2.2 + (r.2.1 - r.1) < q.1 ∨ q.2.1 < r.2.2.2 ∨
    (q.2.2.1 = 2 ∧ (r.2.2.1 = 2 ∨ r.1 = r.2.1) ∧ r.2.2.2 % 2 ≠ q.1 % 2))

/-- `strings.ToLower`. -/
def ToLower (s : GoString) : GoString :=
  s.map toLowerRune

/-- `strings.HasPrefix`. -/
def HasPrefix (s pre : GoString) : Bool :=
  pre.isPrefixOf s

/-- `strings.HasSuffix`. -/
def HasSuffix (s suf : GoString) : Bool :=
  suf.isSuffixOf s

/-- `strings.TrimPrefix`: `s` without the leading `pre`, or `s` itself when it
does not start with `pre`. -/
def TrimPrefix (s pre : GoString) : GoString :=
  if HasPrefix s pre then s.drop pre.length else s

/-- `strings.Contains`: whether `sub` occurs in `s`. -/
def Contains (s sub : GoString) : Bool :=
  s.tails.any (fun t => sub.isPrefixOf t)

/-- The worker of `ReplaceAll`: `skip` counts the runes of a matched occurrence
of `old` that are still to be passed over. -/
def replaceFrom (old new : GoString) : Nat → GoString → GoString
  | _, [] => []
  | k + 1, _ :: t => replaceFrom old new k t
  | 0, c :: t =>
    if old.isPrefixOf (c :: t) then new ++ replaceFrom old new (old.length - 1) t
    else c :: replaceFrom old new 0 t

/-- `strings.ReplaceAll(s, old, new)` for a non-empty `old`: every
non-overlapping occurrence of `old`, from the left, is replaced by `new`. -/
def ReplaceAll (s old new : GoString) : GoString :=
  replaceFrom old new 0 s

/-- The worker of `Split`: `skip` counts the runes of a matched separator that
are still to be passed over. -/
def splitFrom (sep : GoString) : Nat → GoString → List GoString
  | _, [] => [[]]
  | k + 1, _ :: t => splitFrom sep k t
  | 0, c :: t =>
    if sep.isPrefixOf (c :: t) then [] :: splitFrom sep (sep.length - 1) t
    else
      match splitFrom sep 0 t with
      | [] => [[c]]
      | p :: ps => (c :: p) :: ps

/-- `strings.Split(s, sep)` for a non-empty `sep`: the pieces of `s` between the
occurrences of `sep`; there is always at least one piece. -/
def Split (s sep : GoString) : List GoString :=
  splitFrom sep 0 s

/-- `utf8.RuneLen`: the number of bytes of the UTF-8 encoding of a rune. -/
def runeLen (c : Char) : Nat :=
  if c.toNat < 0x80 then 1 else if c.toNat < 0x800 then 2
  else if c.toNat < 0x10000 then 3 else 4

/-- `len(s)`: the number of bytes of a string. -/
def byteLen (s : GoString) : Nat :=
  (s.map runeLen).sum

/-- The byte slice `s[n:]`.  It is `none` when `n` exceeds `len(s)`, where Go
panics (slice bounds out of range).  When the cut falls inside a rune, the
bytes left of that rune are no valid encoding, and each reads as U+FFFD. -/
def sliceFrom (n : Nat) : GoString → Option GoString
  | [] => if n = 0 then some [] else none
  | c :: s =>
    if n = 0 then some (c :: s)
    else if runeLen c ≤ n then sliceFrom (n - runeLen c) s
    else some (List.replicate (runeLen c - n) (Char.ofNat 0xFFFD) ++ s)

/-- `fmt.Sprintf("%d", n)` for a counter that is never negative: the decimal
numeral of `n`. -/
def sprintfD (n : Nat) : GoString :=
  Nat.toDigits 10 n

/-- `fmt.Sprintf("\"%s\"", s)`: `s` between two double quotes. -/
def sprintfQuoted (s : GoString) : GoString :=
  '"' :: (s ++ ['"'])

/-! ## The declaration tree (`go/ast`) -/

/-- An `ast.Expr` standing for the underlying type of a type specification. -/
inductive Expr where
  /-- Case `*ast.Ident`: a plain identifier, `int` or `Other`. -/
  | ident (name : GoString)
  /-- Case `*ast.SelectorExpr`: a qualified identifier, `pkg.Name`. -/
  | selector (x : Expr) (sel : GoString)
  /-- Case `*ast.StarExpr`: a pointer type. -/
  | star (x : Expr)
  /-- Case `*ast.ParenExpr`: a parenthesised type. -/
  | paren (x : Expr)
  /-- Case `*ast.ArrayType`: an array or slice type. -/
  | arrayType (elt : Expr)
  /-- Case `*ast.MapType`. -/
  | mapType (key value : Expr)
  /-- Case `*ast.ChanType`. -/
  | chanType (value : Expr)
  /-- Case `*ast.StructType`. -/
  | structType
  /-- Case `*ast.FuncType`. -/
  | funcType
  /-- Case `*ast.InterfaceType`. -/
  | interfaceType
  deriving DecidableEq

/-- An `ast.Spec`: the three kinds of specification of a general declaration. -/
inductive Spec where
  | importSpec
  | valueSpec
  /-- Case `*ast.TypeSpec`, with `Name.Name` and `Type`. -/
  | typeSpec (name : GoString) (type : Expr)
  deriving DecidableEq

/-- The keyword of a general declaration (`token.IMPORT`, `CONST`, `TYPE`, `VAR`). -/
inductive Token where
  | IMPORT | CONST | TYPE | VAR
  deriving DecidableEq

/-- An `ast.GenDecl`.  `Doc` is `none` for a nil comment group, and otherwise
the `Text` of every comment of `Doc.List`. -/
structure GenDecl where
  Tok : Token
  Doc : Option (List GoString)
  Specs : List Spec
  deriving DecidableEq

/-- An `ast.Decl`. -/
inductive Decl where
  | genDecl (d : GenDecl)
  | funcDecl
  | badDecl
  deriving DecidableEq

/-- A path of the file list, with what `parser.ParseFile` returns for it: an
error, or the declarations (`node.Decls`) of the file. -/
structure SourceFile where
  path : GoString
  parsed : Except String (List Decl)

/-! ## The model the scanner builds -/

/-- Value represents a single value in the enum. -/
structure Value where
  Name : GoString
  Value : GoString
  deriving DecidableEq

/-- Enum represents metadata for an enum type. -/
structure Enum where
  TypeName : GoString
  BaseType : GoString
  Values : List Value
  deriving DecidableEq

/-- What a call comes to: the value returned with a nil error, the error
returned, or a run-time panic. -/
inductive Outcome (α : Type) where
  | ok (val : α)
  | error (msg : String)
  | panic
  deriving DecidableEq

/-! ## `parseEnumComment` -/

/-- The variables the loop over the entries updates. -/
structure LoopState where
  values : List Value
  iotaCounter : Nat
  deriving DecidableEq

/-- The body of the loop `for _, part := range strings.Split(comment, "|")`. -/
def entryStep (baseType : GoString) (st : LoopState) (part : GoString) : LoopState :=
  let part := TrimSpace part
  if part = [] then st
  else
    let parts := Split part "=".toList
    let name := TrimSpace (parts.headD [])
    let val := if parts.length > 1 then TrimSpace (parts.getD 1 []) else []
    if baseType = "string".toList then
      { values := st.values ++
          [{ Name := name, Value := sprintfQuoted (Trim (TrimSpace val) "\"".toList) }],
        iotaCounter := st.iotaCounter }
    else if Contains baseType "int".toList && val == [] then
      { values := st.values ++ [{ Name := name, Value := sprintfD st.iotaCounter }],
        iotaCounter := st.iotaCounter + 1 }
    else
      { values := st.values ++ [{ Name := name, Value := val }],
        iotaCounter := st.iotaCounter }

/-- The directive payload: `strings.TrimSpace(strings.TrimPrefix(
strings.TrimSpace(comment)[7:], ":"))`, or `none` when the slice panics. -/
def payloadOf (comment : GoString) : Option GoString :=
  (sliceFrom 7 (TrimSpace comment)).map (fun rest => TrimSpace (TrimPrefix rest ":".toList))

/-- The values the loop leaves for a payload. -/
def parseValues (baseType payload : GoString) : List Value :=
  ((Split payload "|".toList).foldl (entryStep baseType)
    { values := [], iotaCounter := 0 }).values

/-- parseEnumComment processes the enum comment and extracts enum details. -/
def parseEnumComment (comment : GoString) (genDecl : GenDecl) : Outcome Enum :=
  match payloadOf comment with
  | none => .panic
  | some comment =>
    if genDecl.Specs.length ≠ 1 then .error "unexpected type declaration"
    else
      match genDecl.Specs.head? with
      | some (.typeSpec typeName type) =>
        match type with
        | .ident baseType =>
          .ok { TypeName := typeName, BaseType := baseType,
                Values := parseValues baseType comment }
        | _ => .error "unsupported base type"
      | _ => .error "invalid type spec"

/-! ## `ParseEnums` -/

/-- The test of a comment line: `strings.HasPrefix(strings.ReplaceAll(
strings.TrimSpace(strings.ToLower(comment.Text)), " ", ""), "//enum:")`. -/
def isDirective (text : GoString) : Bool :=
  HasPrefix (ReplaceAll (TrimSpace (ToLower text)) " ".toList []) "//enum:".toList

/-- The loop over `genDecl.Doc.List`; `enums` is the list built so far. -/
def scanComments (genDecl : GenDecl) : List GoString → List Enum → Outcome (List Enum)
  | [], enums => .ok enums
  | text :: rest, enums =>
    if isDirective text then
      match parseEnumComment text genDecl with
      | .ok enum => scanComments genDecl rest (enums ++ [enum])
      | .error err => .error err
      | .panic => .panic
    else scanComments genDecl rest enums

/-- The loop over `node.Decls`. -/
def scanDecls : List Decl → List Enum → Outcome (List Enum)
  | [], enums => .ok enums
  | .genDecl genDecl :: rest, enums =>
    match genDecl.Tok, genDecl.Doc with
    | .TYPE, some doc =>
      match scanComments genDecl doc enums with
      | .ok enums => scanDecls rest enums
      | .error err => .error err
      | .panic => .panic
    | _, _ => scanDecls rest enums
  | _ :: rest, enums => scanDecls rest enums

/-- The loop over `files`. -/
def scanFiles : List SourceFile → List Enum → Outcome (List Enum)
  | [], enums => .ok enums
  | file :: rest, enums =>
    if !HasSuffix file.path ".go".toList || HasSuffix file.path "_enum.go".toList then
      scanFiles rest enums
    else
      match file.parsed with
      | .error err => .error err
      | .ok decls =>
        match scanDecls decls enums with
        | .ok enums => scanFiles rest enums
        | .error err => .error err
        | .panic => .panic

/-- ParseEnums parses Go files and extracts enums based on enum comments. -/
def ParseEnums (files : List SourceFile) : Outcome (List Enum) :=
  scanFiles files []

/-! ## The generator (`internal/generator/generator.go`)

The file system is a state that `GenerateEnum` receives and returns. Paths are
those of a Unix system (`filepath.Separator` is `/`). A file is modelled by its
text; a file that `os.Create` has created or truncated can be opened afterwards.
-/

/-- The elements that `filepath.Clean` keeps, from the elements between the
separators: empty elements and `.` are dropped, `..` removes the element before
it, is dropped at the root, and is kept at the start of a path without root.
`kept` holds the elements kept so far, the last one first. -/
def cleanElems (rooted : Bool) : List GoString → List GoString → List GoString
  | [], kept => kept.reverse
  | e :: es, kept =>
    if e = [] ∨ e = ".".toList then cleanElems rooted es kept
    else if e = "..".toList then
      match kept with
      | top :: below =>
        if top = "..".toList then cleanElems rooted es (e :: kept)
        else cleanElems rooted es below
      | [] => if rooted then cleanElems rooted es [] else cleanElems rooted es [e]
    else cleanElems rooted es (e :: kept)

/-- `filepath.Clean`: the shortest path name equivalent to `path` by purely
lexical processing; `.` for the empty path. -/
def Clean (path : GoString) : GoString :=
  let rooted := path.head? = some '/'
  let out := (if rooted then "/".toList else []) ++
    "/".toList.intercalate (cleanElems rooted (path.splitOn '/') [])
  if out = [] then ".".toList else out

/-- `filepath.Join(a, b)`: the elements from the first non-empty one on, joined
by the separator and cleaned; the empty string when both are empty. -/
def Join (a b : GoString) : GoString :=
  if a ≠ [] then Clean (a ++ '/' :: b) else if b ≠ [] then Clean b else []

/-- The function `dropCR` of `bufio`: a line without its trailing carriage return. -/
def dropCR (line : GoString) : GoString :=
  if line.getLast? = some '\r' then line.dropLast else line

/-- The constant `bufio.MaxScanTokenSize`, the size of the buffer of a scanner. -/
def maxScanTokenSize : Nat := 64 * 1024

/-- The lines that `scanner.Scan()` and `scanner.Text()` yield for a file, with
`bufio.ScanLines` and the buffer of `bufio.NewScanner`: the pieces between the
newlines, without an empty piece after the last newline, each without its
trailing carriage return. The scan ends before the first line that does not fit
into the buffer together with its newline (`Scan` returns false there). -/
def scanLines (content : GoString) : List GoString :=
  let pieces := content.splitOn '\n'
  let lines := if pieces.getLast? = some [] then pieces.dropLast else pieces
  (lines.takeWhile (fun l => decide (byteLen l < maxScanTokenSize))).map dropCR

/-- The file system, as far as `GenerateEnum` meets it. -/
structure FileSys where
  /-- The text of the file at a path, where `os.Open` opens a file; `none` where
  `os.Open` returns an error. -/
  files : GoString → Option GoString
  /-- The error of `os.Create` at a path; `none` where it creates or truncates
  the file. -/
  createError : GoString → Option String

/-- The file system after the file at `path` has got the text `content`. -/
def FileSys.write (fs : FileSys) (path content : GoString) : FileSys :=
  { files := fun p => if p = path then some content else fs.files p,
    createError := fs.createError }

/-- The template asset `enum.go.tmpl`, which is embedded into the binary and is
not among the sources: `GenerateEnum` takes it as a parameter. `parseError` is the
error of `template.Parse` on its text (`none` when it parses), and
`execute packageName enum` is the text that `tmpl.Execute` writes to the file, with
the error that it returns after this text, if any. -/
structure Template where
  parseError : Option String
  execute : GoString → Enum → GoString × Option String

/-- The function `contains` of the template: whether `substr` occurs in `base`. -/
def contains (base substr : GoString) : Bool :=
  Contains base substr

/-- defaultFor returns the default value for a given type. -/
def defaultFor (baseType : GoString) : GoString :=
  if baseType = "string".toList then "\"\"".toList
  else if baseType = "float64".toList ∨ baseType = "float32".toList then "0.0".toList
  else if baseType = "bool".toList then "false".toList
  else "0".toList

/-- The function `lower` of the template. -/
def lower (s : GoString) : GoString :=
  ToLower s

/-- The header that `fileContainsHeader` looks for (line 89). -/
def headerText (packageName typeName : GoString) : GoString :=
  "// Package ".toList ++ packageName ++
    " adds an enum value and parsing functions for the enum type ".toList ++ typeName ++
    ".".toList

/-- fileContainsHeader checks if a file contains the generated header. -/
def fileContainsHeader (fs : FileSys) (filePath packageName typeName : GoString) : Bool :=
  match fs.files filePath with
  | none => false
  | some content =>
    (scanLines content).any (fun line => Contains line (headerText packageName typeName))

/-- The destination path (line 44): `filepath.Join(outputDir,
strings.TrimSpace(strings.ToLower(enum.TypeName))+"_enum.go")`. -/
def destinationPath (outputDir typeName : GoString) : GoString :=
  Join outputDir (TrimSpace (ToLower typeName) ++ "_enum.go".toList)

/-- GenerateEnum generates a Go file for the given Enum. It returns the file
system it leaves and the error it returns, `none` for a nil error. -/
def GenerateEnum (tmpl : Template) (fs : FileSys) (outputDir packageName : GoString)
    (enum : Enum) : FileSys × Option String :=
  let filePath := destinationPath outputDir enum.TypeName
  if fileContainsHeader fs filePath packageName enum.TypeName then (fs, none)
  else
    match fs.createError filePath with
    | some err => (fs, some err)
    | none =>
      match tmpl.parseError with
      | some err => (fs.write filePath [], some err)
      | none =>
        (fs.write filePath (tmpl.execute packageName enum).1,
          (tmpl.execute packageName enum).2)

/-- A template that renders the header comment and the package clause; it stands
for the asset in the examples. -/
def plainTemplate : Template :=
  { parseError := none,
    execute := fun packageName enum =>
      (headerText packageName enum.TypeName ++ "\npackage ".toList ++ packageName ++
        "\n".toList, none) }

/-- A file system with one file, at `path`, that can be truncated. -/
def oneFileSys (path content : String) : FileSys :=
  { files := fun p => if p = path.toList then some content.toList else none,
    createError := fun _ => none }

/-- A file system with one file, at `path`, that is read-only: `os.Create`
returns an error on it. -/
def readOnlyFileSys (path content : String) : FileSys :=
  { files := fun p => if p = path.toList then some content.toList else none,
    createError := fun p => if p = path.toList then some "permission denied" else none }

/-- The identity string as the claim on the guard words it, without the start
`// Package ` of the header. -/
def claimedHeaderText (packageName typeName : GoString) : GoString :=
  packageName ++ " adds an enum value and parsing functions for the enum type ".toList ++
    typeName ++ ".".toList

/-- Whether two runes are equal or one of them is the lower-case form of the
other. -/
def sameRuneUpToCase (a b : Char) : Bool :=
  a == b || toLowerRune a == b || toLowerRune b == a

/-- Two names that differ only in letter case: they have the same length, and
rune by rune they are equal or one rune is the lower-case form of the other. -/
def sameUpToCase : GoString → GoString → Bool
  | [], [] => true
  | a :: s, b :: t => sameRuneUpToCase a b && sameUpToCase s t
  | _, _ => false

/-- The model of `type Color string` with the members `RED` and `BLUE`. -/
def colorEnum : Enum :=
  { TypeName := "Color".toList, BaseType := "string".toList,
    Values := [⟨"RED".toList, "\"#FF0000\"".toList⟩, ⟨"BLUE".toList, "\"\"".toList⟩] }

/-- The model of `type Éclair int` with the member `Plain`. -/
def eclairEnum : Enum :=
  { TypeName := "Éclair".toList, BaseType := "int".toList,
    Values := [⟨"Plain".toList, "0".toList⟩] }

/-- A file text whose only line holds the identity string of `mypkg` and `Color`
without the start `// Package `. -/
def staleText : String :=
  "mypkg adds an enum value and parsing functions for the enum type Color.\n"

/-- A file text that holds the header of `mypkg` and `Color` on its second line. -/
def generatedText : String :=
  "// Code generated by go-enum.\r\n// Package mypkg adds an enum value and parsing functions for the enum type Color.\r\npackage mypkg\r\n"

/-- A file text whose first line is the header of `mypkg` and `Éclair`. -/
def eclairText : String :=
  "// Package mypkg adds an enum value and parsing functions for the enum type Éclair.\n"

/-- A file system without files, in which every file can be created. -/
def emptyFileSys : FileSys :=
  { files := fun _ => none, createError := fun _ => none }

/-! ## The words of the claims -/

/-- The entries of a payload: the pieces between the `|`, each one trimmed,
without the pieces that are empty after trimming. -/
def entriesOf (payload : GoString) : List GoString :=
  ((payload.splitOn '|').map TrimSpace).filter (fun e => decide (e ≠ []))

/-- The supplied value of an entry in the words of the spec, which splits an entry
on its first `=` and trims both parts: the trimmed text after the first `=`, and
the empty text for an entry without `=`. -/
def suppliedText (entry : GoString) : GoString :=
  TrimSpace ((entry.dropWhile (fun c => decide (c ≠ '='))).drop 1)

/-- The integer types of Go that the first claim lists. -/
def integerTypes : List GoString :=
  ["int", "int8", "int16", "int32", "int64",
    "uint", "uint8", "uint16", "uint32", "uint64"].map String.toList

/-- The reading of "surrounding quotes stripped exactly once": one leading double
quote is removed when present, and one trailing double quote is removed when
present. -/
def stripQuotesOnce (w : GoString) : GoString :=
  let w1 := if w.head? = some '"' then w.tail else w
  if w1.getLast? = some '"' then w1.dropLast else w1

/-! ## The loop body of `parseEnumComment`, entry by entry -/

/-- The name the loop body takes from a trimmed entry (`name`). -/
def entryName (entry : GoString) : GoString :=
  TrimSpace ((Split entry "=".toList).headD [])

/-- The text the loop body takes as the value of a trimmed entry (`val`, before
the derivation): the trimmed piece between the first and the second `=`. It is
the supplied value of an entry that holds at most one `=`. -/
def takenValue (entry : GoString) : GoString :=
  if (Split entry "=".toList).length > 1 then TrimSpace ((Split entry "=".toList).getD 1 [])
  else []

/-- Whether the loop body advances `iotaCounter` on a trimmed entry. -/
def advances (baseType entry : GoString) : Bool :=
  decide (baseType ≠ "string".toList) && (Contains baseType "int".toList &&
    takenValue entry == [])

/-- The member the loop body appends for a trimmed entry when the counter is `k`. -/
def deriveOne (baseType : GoString) (k : Nat) (entry : GoString) : Value :=
  if baseType = "string".toList then
    { Name := entryName entry,
      Value := sprintfQuoted (Trim (TrimSpace (takenValue entry)) "\"".toList) }
  else if Contains baseType "int".toList && takenValue entry == [] then
    { Name := entryName entry, Value := sprintfD k }
  else { Name := entryName entry, Value := takenValue entry }

/-- The members the loop appends for a list of trimmed, non-blank entries when
the counter starts at `k`. -/
def deriveAll (baseType : GoString) : Nat → List GoString → List Value
  | _, [] => []
  | k, e :: es =>
    deriveOne baseType k e :: deriveAll baseType (if advances baseType e then k + 1 else k) es

/-- The type declaration group `type name base`. -/
def typeDecl (name base : String) : GenDecl :=
  { Tok := .TYPE, Doc := none, Specs := [.typeSpec name.toList (.ident base.toList)] }

/-- A file `t.go` that holds the one declaration `type T int`, with `text` as the
only line of its leading comment. -/
def oneTypeFile (text : GoString) : SourceFile :=
  { path := "t.go".toList,
    parsed := .ok [.genDecl
      { Tok := .TYPE, Doc := some [text],
        Specs := [.typeSpec "T".toList (.ident "int".toList)] }] }

/-- The float and bool types that the claim on verbatim values lists. -/
def floatBoolTypes : List GoString :=
  ["float32", "float64", "bool"].map String.toList

/-- The value derived on base type `string` from the text `val` (line 101):
`fmt.Sprintf("\"%s\"", strings.Trim(strings.TrimSpace(val), "\""))`. -/
def stringValue (val : GoString) : GoString :=
  sprintfQuoted (Trim (TrimSpace val) "\"".toList)

/-! ## The scan of `ParseEnums` as a sequence of events -/

/-- What the scan meets: a file that `parser.ParseFile` refuses, or a line that
is taken for a directive, with the declaration group it stands over. -/
inductive ScanEvent where
  | parseFailure (err : String)
  | directive (text : GoString) (genDecl : GenDecl)
  deriving DecidableEq

/-- What an event comes to: the error of the parser, or what `parseEnumComment`
returns on the directive line. -/
def ScanEvent.result : ScanEvent → Outcome Enum
  | .parseFailure err => .error err
  | .directive text genDecl => parseEnumComment text genDecl

/-- The directive lines of a declaration, in the order of its leading comment
block; only a type declaration group with a comment block has any. -/
def eventsOfDecl : Decl → List ScanEvent
  | .genDecl genDecl =>
    match genDecl.Tok, genDecl.Doc with
    | .TYPE, some doc => (doc.filter isDirective).map (fun text => .directive text genDecl)
    | _, _ => []
  | _ => []

/-- Whether a path is left out of the scan: it does not end in `.go`, or it ends
in `_enum.go`. -/
def isSkipped (file : SourceFile) : Bool :=
  decide (¬ ".go".toList <:+ file.path ∨ "_enum.go".toList <:+ file.path)

/-- The events of a file, in the order of its declarations: none for a path that
is left out, the failure for a file that does not parse. -/
def eventsOfFile (file : SourceFile) : List ScanEvent :=
  if isSkipped file then []
  else
    match file.parsed with
    | .error err => [.parseFailure err]
    | .ok decls => decls.flatMap eventsOfDecl

/-- The events of a file list, in the order of the files. -/
def eventsOf (files : List SourceFile) : List ScanEvent :=
  files.flatMap eventsOfFile

/-- The events handled one after the other, from the models `enums` on: the
first event that does not come to a model ends the run. -/
def runEvents : List ScanEvent → List Enum → Outcome (List Enum)
  | [], enums => .ok enums
  | ev :: rest, enums =>
    match ev.result with
    | .ok enum => runEvents rest (enums ++ [enum])
    | .error err => .error err
    | .panic => .panic

/-- A file at `path` that holds the one declaration `type name base` under the
lines `doc` of a leading comment block. -/
def fileWith (path : String) (doc : List String) (name base : String) : SourceFile :=
  { path := path.toList,
    parsed := .ok [.genDecl
      { Tok := .TYPE, Doc := some (doc.map String.toList),
        Specs := [.typeSpec name.toList (.ident base.toList)] }] }

/-- A file at `path` that `parser.ParseFile` refuses with the error `err`. -/
def brokenFile (path err : String) : SourceFile :=
  { path := path.toList, parsed := .error err }

/-- A file `status.go` that holds `type Status int` under two directive lines and
a plain comment line between them. -/
def twoDirectiveFile : SourceFile :=
  fileWith "status.go" ["//enum: A | B", "// Status of a job.", "// enum: C"] "Status" "int"

/-! ## Lemmas on the library functions -/

theorem Split_singleton (c : Char) (s : GoString) : Split s [c] = s.splitOn c := by
  unfold Split
  induction s with
  | nil => rfl
  | cons x t ih =>
    have hne : t.splitOn c ≠ [] := List.splitOnP_ne_nil _ _
    rw [splitFrom, List.splitOn, List.splitOnP_cons]
    simp only [List.isPrefixOf, List.length_singleton, Nat.sub_self, Bool.and_true]
    rw [ih]
    by_cases h : x = c
    · subst h
      simp [List.splitOn]
    · have h1 : (c == x) = false := by simpa using fun h2 => h h2.symm
      have h2 : (x == c) = false := by simpa using h
      rw [h1, h2]
      simp only [Bool.false_eq_true, if_false]
      cases hs : t.splitOn c with
      | nil => exact absurd hs hne
      | cons p ps =>
        rw [List.splitOn] at hs
        rw [hs]
        rfl

theorem headD_Split_singleton (c : Char) (s : GoString) :
    (Split s [c]).headD [] = s.takeWhile (fun x => decide (x ≠ c)) := by
  unfold Split
  induction s with
  | nil => rfl
  | cons x t ih =>
    rw [splitFrom]
    simp only [List.isPrefixOf, Bool.and_true]
    by_cases h : x = c
    · subst h
      simp
    · have h1 : (c == x) = false := by simpa using fun h2 => h h2.symm
      rw [h1]
      simp only [Bool.false_eq_true, if_false]
      rw [List.takeWhile_cons_of_pos (by simpa using h), ← ih]
      cases splitFrom [c] 0 t <;> rfl

theorem dropWhile_rdropWhile_dropWhile (p : Char → Bool) (s : GoString) :
    ((s.dropWhile p).rdropWhile p).dropWhile p = (s.dropWhile p).rdropWhile p := by
  cases hu : s.dropWhile p with
  | nil => simp
  | cons a u =>
    have ha : ¬ p a = true := by
      have h := List.head_dropWhile_not p s (by rw [hu]; simp)
      simpa [hu] using h
    obtain ⟨w, hw⟩ := List.rdropWhile_prefix p (a :: u)
    cases hr : List.rdropWhile p (a :: u) with
    | nil => rfl
    | cons b v =>
      rw [hr] at hw
      have hb : b = a := by
        simp only [List.cons_append, List.cons.injEq] at hw
        exact hw.1
      subst hb
      exact List.dropWhile_cons_of_neg ha

theorem TrimSpace_idem (s : GoString) : TrimSpace (TrimSpace s) = TrimSpace s := by
  unfold TrimSpace
  rw [dropWhile_rdropWhile_dropWhile, List.rdropWhile_idempotent]

theorem Trim_eq_self (s cutset : GoString) (h : ∀ c ∈ s, c ∉ cutset) : Trim s cutset = s := by
  unfold Trim
  have h1 : s.dropWhile (fun c => decide (c ∈ cutset)) = s := by
    rw [List.dropWhile_eq_self_iff]
    intro hl
    have := h _ (List.head_mem (List.ne_nil_of_length_pos hl))
    simpa [List.head_eq_getElem] using this
  rw [h1, List.rdropWhile_eq_self_iff]
  intro hl
  simpa using h _ (List.getLast_mem hl)

theorem rdropWhile_append_rtakeWhile (p : Char → Bool) (l : GoString) :
    l.rdropWhile p ++ l.rtakeWhile p = l := by
  unfold List.rdropWhile List.rtakeWhile
  rw [← List.reverse_append, List.takeWhile_append_dropWhile, List.reverse_reverse]

theorem Trim_spec (w : GoString) (q : Char) :
    ∃ k m, w = List.replicate k q ++ (Trim w [q] ++ List.replicate m q) ∧
      (Trim w [q]).head? ≠ some q ∧ (Trim w [q]).getLast? ≠ some q := by
  have hp : ∀ x, (fun c => decide (c ∈ [q])) x = true → x = q := by
    intro x hx
    simpa using hx
  refine ⟨(w.takeWhile (fun c => decide (c ∈ [q]))).length,
    ((w.dropWhile (fun c => decide (c ∈ [q]))).rtakeWhile (fun c => decide (c ∈ [q]))).length,
    ?_, ?_, ?_⟩
  · have h1 : List.replicate (w.takeWhile (fun c => decide (c ∈ [q]))).length q =
        w.takeWhile (fun c => decide (c ∈ [q])) :=
      (List.eq_replicate_iff.mpr ⟨rfl, fun b hb =>
        hp b (@List.mem_takeWhile_imp _ (fun c => decide (c ∈ [q])) _ b hb)⟩).symm
    have h2 : List.replicate ((w.dropWhile (fun c => decide (c ∈ [q]))).rtakeWhile
        (fun c => decide (c ∈ [q]))).length q =
        (w.dropWhile (fun c => decide (c ∈ [q]))).rtakeWhile (fun c => decide (c ∈ [q])) :=
      (List.eq_replicate_iff.mpr ⟨rfl, fun b hb =>
        hp b (@List.mem_rtakeWhile_imp _ (fun c => decide (c ∈ [q])) _ b hb)⟩).symm
    rw [h1, h2]
    unfold Trim
    rw [rdropWhile_append_rtakeWhile, List.takeWhile_append_dropWhile]
  · intro hh
    have hfix := dropWhile_rdropWhile_dropWhile (fun c => decide (c ∈ [q])) w
    change (Trim w [q]).dropWhile (fun c => decide (c ∈ [q])) = Trim w [q] at hfix
    cases ht : Trim w [q] with
    | nil => rw [ht] at hh; simp at hh
    | cons a t =>
      rw [ht] at hh hfix
      simp only [List.head?_cons, Option.some.injEq] at hh
      subst hh
      rw [List.dropWhile_cons_of_pos (by simp)] at hfix
      have hlen := congrArg List.length hfix
      rw [List.length_cons] at hlen
      have hle : (t.dropWhile (fun c => decide (c ∈ [a]))).length ≤ t.length :=
        List.IsSuffix.length_le (List.dropWhile_suffix _)
      omega
  · intro hh
    cases ht : Trim w [q] with
    | nil => rw [ht] at hh; simp at hh
    | cons a t =>
      have hne : (w.dropWhile (fun c => decide (c ∈ [q]))).rdropWhile
          (fun c => decide (c ∈ [q])) ≠ [] := by
        intro h0
        unfold Trim at ht
        rw [h0] at ht
        exact List.noConfusion ht
      have hlast := List.rdropWhile_last_not (fun c => decide (c ∈ [q]))
        (w.dropWhile (fun c => decide (c ∈ [q]))) hne
      have hh2 : ((w.dropWhile (fun c => decide (c ∈ [q]))).rdropWhile
          (fun c => decide (c ∈ [q]))).getLast? = some q := hh
      rw [List.getLast?_eq_getLast _ hne, Option.some.injEq] at hh2
      rw [hh2] at hlast
      simp at hlast

theorem ReplaceAll_singleton_nil (c : Char) (s : GoString) :
    ReplaceAll s [c] [] = s.filter (fun x => decide (x ≠ c)) := by
  unfold ReplaceAll
  induction s with
  | nil => rfl
  | cons x t ih =>
    rw [replaceFrom]
    simp only [List.isPrefixOf, List.length_singleton, Nat.sub_self, Bool.and_true,
      List.nil_append]
    rw [ih]
    by_cases h : x = c
    · subst h
      simp
    · have h1 : (c == x) = false := by simpa using fun h2 => h h2.symm
      rw [h1, List.filter_cons_of_pos (by simpa using h)]
      simp

theorem lowerRuns_ok : lowerRuns.all runOk = true := by
  decide

set_option maxRecDepth 1000000 in
theorem lowerRuns_apart :
    lowerRuns.all (fun r => lowerRuns.all (fun q => runApart r q)) = true := by
  decide

theorem toNat_ofNat_valid (m : Nat) (h : m < 0xD800 ∨ (0xDFFF < m ∧ m < 0x110000)) :
    (Char.ofNat m).toNat = m := by
  unfold Char.ofNat
  rw [dif_pos h]
  rfl

theorem spaceFree_spec (lo hi : Nat) (c : Char) (h : spaceFree lo hi = true)
    (hlo : lo ≤ c.toNat) (hhi : c.toNat ≤ hi) : isSpace c = false := by
  unfold spaceFree at h
  have h2 := of_decide_eq_true h
  unfold isSpace
  generalize c.toNat = n at hlo hhi
  simp only [Bool.or_eq_false_iff, Bool.and_eq_false_iff, decide_eq_false_iff_not,
    beq_eq_false_iff_ne, ne_eq]
  omega

/-- What `toLowerRune` does on a rune outside ASCII: it keeps the rune, which no
run maps, or it maps the rune by a run of the table. -/
theorem toLowerRune_outside (c : Char) (h : ¬ c.toNat < 128) :
    (toLowerRune c = c ∧ ∀ q ∈ lowerRuns, runCovers q c.toNat = false) ∨
      ∃ r ∈ lowerRuns, runCovers r c.toNat = true ∧
        toLowerRune c = Char.ofNat (r.2.2.2 + (c.toNat - r.1)) := by
  unfold toLowerRune
  rw [if_neg h]
  cases hf : lowerRuns.find? (fun r => runCovers r c.toNat) with
  | none =>
    left
    refine ⟨rfl, ?_⟩
    intro q hq
    have := List.find?_eq_none.mp hf q hq
    simpa using this
  | some r =>
    right
    have hcov : runCovers r c.toNat = true :=
      List.find?_some (p := fun r => runCovers r c.toNat) hf
    exact ⟨r, List.mem_of_find?_eq_some hf, hcov, rfl⟩

/-- The rune that a run maps a rune to: its number, and that it is no white
space and not below `a`. -/
theorem run_image (r : Nat × Nat × Nat × Nat) (hr : r ∈ lowerRuns) (n : Nat)
    (hc : runCovers r n = true) :
    (Char.ofNat (r.2.2.2 + (n - r.1))).toNat = r.2.2.2 + (n - r.1) ∧
      isSpace (Char.ofNat (r.2.2.2 + (n - r.1))) = false ∧
      97 ≤ r.2.2.2 + (n - r.1) ∧ 128 ≤ n ∧
      ∀ c : Char, c.toNat = n → isSpace c = false := by
  have hok := List.all_eq_true.mp lowerRuns_ok r hr
  unfold runOk at hok
  simp only [Bool.and_eq_true, decide_eq_true_eq] at hok
  obtain ⟨⟨⟨_, hlo, _, ht, hvalid⟩, hs1⟩, hs2⟩ := hok
  unfold runCovers at hc
  have hc2 := of_decide_eq_true hc
  have hnat : (Char.ofNat (r.2.2.2 + (n - r.1))).toNat = r.2.2.2 + (n - r.1) :=
    toNat_ofNat_valid _ (by omega)
  refine ⟨hnat, ?_, by omega, by omega, ?_⟩
  · exact spaceFree_spec _ _ _ hs2 (by omega) (by omega)
  · intro c hcn
    exact spaceFree_spec _ _ c hs1 (by omega) (by omega)

theorem isSpace_toLowerRune (c : Char) : isSpace (toLowerRune c) = isSpace c := by
  by_cases h : c.toNat < 128
  · unfold toLowerRune
    rw [if_pos h]
    split
    · rename_i hup
      obtain ⟨hl, hu⟩ := hup
      have h1 : isSpace c = false := by
        unfold isSpace
        generalize c.toNat = n at hl hu
        clear h
        interval_cases n <;> rfl
      have h2 : isSpace (Char.ofNat (c.toNat + 32)) = false := by
        generalize c.toNat = n at hl hu
        clear h
        interval_cases n <;> rfl
      rw [h1, h2]
    · rfl
  · rcases toLowerRune_outside c h with ⟨hsame, _⟩ | ⟨r, hr, hc, hlow⟩
    · rw [hsame]
    · obtain ⟨_, himg, _, _, hsrc⟩ := run_image r hr c.toNat hc
      rw [hlow, himg, hsrc c rfl]

theorem rdropWhile_map (f : Char → Char) (p : Char → Bool) (l : GoString) :
    (l.map f).rdropWhile p = (l.rdropWhile (p ∘ f)).map f := by
  unfold List.rdropWhile
  rw [← List.map_reverse, List.dropWhile_map, List.map_reverse]

theorem TrimSpace_ToLower (s : GoString) : TrimSpace (ToLower s) = ToLower (TrimSpace s) := by
  have hf : isSpace ∘ toLowerRune = isSpace := funext isSpace_toLowerRune
  unfold TrimSpace ToLower
  rw [List.dropWhile_map, rdropWhile_map, hf]

theorem length_le_byteLen (s : GoString) : s.length ≤ byteLen s := by
  unfold byteLen
  induction s with
  | nil => simp
  | cons c t ih =>
    have hc : 1 ≤ runeLen c := by
      unfold runeLen
      split_ifs <;> omega
    simp only [List.length_cons, List.map_cons, List.sum_cons]
    omega

theorem sliceFrom_isSome (s : GoString) (n : Nat) (h : n ≤ byteLen s) :
    (sliceFrom n s).isSome = true := by
  induction s generalizing n with
  | nil =>
    have h0 : n = 0 := by simpa [byteLen] using h
    simp [sliceFrom, h0]
  | cons c t ih =>
    unfold sliceFrom
    by_cases h0 : n = 0
    · simp [h0]
    · by_cases hc : runeLen c ≤ n
      · rw [if_neg h0, if_pos hc]
        apply ih
        simp only [byteLen, List.map_cons, List.sum_cons] at h ⊢
        omega
      · rw [if_neg h0, if_neg hc]
        rfl

/-! ## Lemmas on the loop of `parseEnumComment` -/

theorem entryStep_blank (b : GoString) (st : LoopState) (part : GoString)
    (h : TrimSpace part = []) : entryStep b st part = st := by
  simp [entryStep, h]

theorem entryStep_entry (b : GoString) (st : LoopState) (part : GoString)
    (h : TrimSpace part ≠ []) :
    entryStep b st part =
      { values := st.values ++ [deriveOne b st.iotaCounter (TrimSpace part)],
        iotaCounter := if advances b (TrimSpace part) then st.iotaCounter + 1
          else st.iotaCounter } := by
  have hstep : entryStep b st part =
      if b = "string".toList then
        ⟨st.values ++ [⟨entryName (TrimSpace part), sprintfQuoted
          (Trim (TrimSpace (takenValue (TrimSpace part))) "\"".toList)⟩], st.iotaCounter⟩
      else if Contains b "int".toList && takenValue (TrimSpace part) == [] then
        ⟨st.values ++ [⟨entryName (TrimSpace part), sprintfD st.iotaCounter⟩],
          st.iotaCounter + 1⟩
      else
        ⟨st.values ++ [⟨entryName (TrimSpace part), takenValue (TrimSpace part)⟩],
          st.iotaCounter⟩ := by
    unfold entryStep
    simp only [h, if_false]
    rfl
  rw [hstep]
  unfold deriveOne advances
  by_cases hb : b = "string".toList
  · rw [if_pos hb, if_pos hb]
    simp only [ne_eq, hb, not_true_eq_false, decide_False, Bool.false_and]
    rfl
  · rw [if_neg hb, if_neg hb]
    simp only [ne_eq, hb, not_false_eq_true, decide_True, Bool.true_and]
    cases hc : (Contains b "int".toList && takenValue (TrimSpace part) == []) <;> rfl

theorem foldl_entryStep (b : GoString) (parts : List GoString) (st : LoopState) :
    (parts.foldl (entryStep b) st).values = st.values ++
      deriveAll b st.iotaCounter
        ((parts.map TrimSpace).filter (fun e => decide (e ≠ []))) := by
  induction parts generalizing st with
  | nil => simp [deriveAll]
  | cons part rest ih =>
    rw [List.foldl_cons, ih]
    by_cases h : TrimSpace part = []
    · rw [entryStep_blank b st part h]
      simp [h]
    · rw [entryStep_entry b st part h]
      simp [h, deriveAll]

theorem parseValues_eq (b payload : GoString) :
    parseValues b payload = deriveAll b 0 (entriesOf payload) := by
  unfold parseValues entriesOf
  rw [foldl_entryStep]
  have h : Split payload "|".toList = payload.splitOn '|' := Split_singleton '|' payload
  rw [h]
  rfl

theorem deriveAll_length (b : GoString) (es : List GoString) (k : Nat) :
    (deriveAll b k es).length = es.length := by
  induction es generalizing k with
  | nil => rfl
  | cons e es ih => simp [deriveAll, ih]

theorem deriveAll_getElem? (b : GoString) (es : List GoString) (k i : Nat) :
    (deriveAll b k es)[i]? =
      (es[i]?).map (fun e => deriveOne b (k + (es.take i).countP (advances b)) e) := by
  induction es generalizing k i with
  | nil => simp [deriveAll]
  | cons e es ih =>
    cases i with
    | zero => simp [deriveAll]
    | succ i =>
      simp only [deriveAll, List.getElem?_cons_succ, List.take_succ_cons, List.countP_cons]
      rw [ih]
      by_cases ha : advances b e = true
      · simp [ha, Nat.add_comm, Nat.add_left_comm]
      · simp [ha]

theorem parseEnumComment_ident (comment payload : GoString) (tok : Token)
    (doc : Option (List GoString)) (typeName baseType : GoString)
    (hpay : payloadOf comment = some payload) :
    parseEnumComment comment
        { Tok := tok, Doc := doc, Specs := [.typeSpec typeName (.ident baseType)] } =
      .ok { TypeName := typeName, BaseType := baseType,
            Values := deriveAll baseType 0 (entriesOf payload) } := by
  simp [parseEnumComment, hpay, parseValues_eq]

theorem integerTypes_spec (b : GoString) (h : b ∈ integerTypes) :
    b ≠ "string".toList ∧ Contains b "int".toList = true := by
  have hall : ∀ x ∈ integerTypes, x ≠ "string".toList ∧ Contains x "int".toList = true := by
    decide
  exact hall b h

theorem TrimSpace_takenValue (e : GoString) :
    TrimSpace (takenValue e) = takenValue e := by
  unfold takenValue
  split
  · exact TrimSpace_idem _
  · rfl

theorem deriveOne_Name (b : GoString) (k : Nat) (e : GoString) :
    (deriveOne b k e).Name = entryName e := by
  unfold deriveOne
  split
  · rfl
  · split <;> rfl

theorem deriveOne_string (k : Nat) (e : GoString) :
    deriveOne "string".toList k e =
      { Name := entryName e, Value := sprintfQuoted (Trim (takenValue e) "\"".toList) } := by
  unfold deriveOne
  rw [if_pos rfl, TrimSpace_takenValue]

theorem deriveOne_bare (b : GoString) (k : Nat) (e : GoString) (hb : b ≠ "string".toList)
    (hc : Contains b "int".toList = true) (hs : takenValue e = []) :
    deriveOne b k e = { Name := entryName e, Value := sprintfD k } := by
  unfold deriveOne
  rw [if_neg hb, hc, hs]
  rfl

theorem deriveOne_supplied (b : GoString) (k : Nat) (e : GoString) (hb : b ≠ "string".toList)
    (hs : takenValue e ≠ []) :
    deriveOne b k e = { Name := entryName e, Value := takenValue e } := by
  unfold deriveOne
  have h : (Contains b "int".toList && takenValue e == []) = false := by
    have : (takenValue e == []) = false := by simpa using hs
    rw [this, Bool.and_false]
  rw [if_neg hb, h]
  rfl

theorem advances_integer (b : GoString) (hb : b ≠ "string".toList)
    (hc : Contains b "int".toList = true) :
    advances b = fun e => decide (takenValue e = []) := by
  funext e
  unfold advances
  rw [hc, decide_eq_true hb, Bool.true_and, Bool.true_and]
  by_cases h : takenValue e = []
  · rw [h]; rfl
  · rw [decide_eq_false h]
    simpa using h

theorem parseEnumComment_ok_inv (comment : GoString) (genDecl : GenDecl) (enum : Enum)
    (h : parseEnumComment comment genDecl = .ok enum) :
    ∃ payload typeName baseType, payloadOf comment = some payload ∧
      genDecl.Specs = [.typeSpec typeName (.ident baseType)] ∧
      enum = { TypeName := typeName, BaseType := baseType,
               Values := deriveAll baseType 0 (entriesOf payload) } := by
  obtain ⟨tok, doc, specs⟩ := genDecl
  cases hp : payloadOf comment with
  | none =>
    simp [parseEnumComment, hp] at h
  | some payload =>
    rcases specs with _ | ⟨sp, _ | ⟨sp2, rest⟩⟩
    · simp [parseEnumComment, hp] at h
    · cases sp with
      | importSpec => simp [parseEnumComment, hp] at h
      | valueSpec => simp [parseEnumComment, hp] at h
      | typeSpec name ty =>
        cases ty with
        | ident b =>
          rw [parseEnumComment_ident comment payload tok doc name b hp] at h
          exact ⟨payload, name, b, rfl, rfl, (Outcome.ok.inj h).symm⟩
        | _ => simp [parseEnumComment, hp] at h
    · simp [parseEnumComment, hp] at h

theorem deriveAll_mem (b : GoString) (es : List GoString) (k : Nat) (v : Value)
    (h : v ∈ deriveAll b k es) : ∃ e n, e ∈ es ∧ v = deriveOne b n e := by
  obtain ⟨i, hi⟩ := List.mem_iff_getElem?.mp h
  rw [deriveAll_getElem?] at hi
  cases he : es[i]? with
  | none => rw [he] at hi; simp at hi
  | some e =>
    rw [he] at hi
    exact ⟨e, _, List.getElem?_mem he, (Option.some.inj hi).symm⟩

theorem entryName_eq (e : GoString) :
    entryName e = TrimSpace (e.takeWhile (fun c => decide (c ≠ '='))) := by
  unfold entryName
  have h : (Split e "=".toList).headD [] = e.takeWhile (fun c => decide (c ≠ '=')) :=
    headD_Split_singleton '=' e
  rw [h]

theorem deriveAll_map_Name (b : GoString) (es : List GoString) (k : Nat) :
    (deriveAll b k es).map Value.Name = es.map entryName := by
  induction es generalizing k with
  | nil => rfl
  | cons e es ih => simp [deriveAll, ih, deriveOne_Name]

/-! ## Lemmas on the test of a comment line -/

theorem isDirective_filter (text : GoString) :
    isDirective text = true ↔
      "//enum:".toList <+:
        (TrimSpace (ToLower text)).filter (fun c => decide (c ≠ ' ')) := by
  unfold isDirective HasPrefix
  have h : ReplaceAll (TrimSpace (ToLower text)) " ".toList [] =
      (TrimSpace (ToLower text)).filter (fun c => decide (c ≠ ' ')) :=
    ReplaceAll_singleton_nil ' ' _
  rw [h, List.isPrefixOf_iff_prefix]

theorem seven_le_byteLen_of_isDirective (text : GoString) (h : isDirective text = true) :
    7 ≤ byteLen (TrimSpace text) := by
  have h1 := List.IsPrefix.length_le ((isDirective_filter text).mp h)
  have h2 := List.length_filter_le (fun c => decide (c ≠ ' ')) (TrimSpace (ToLower text))
  have h3 : (TrimSpace (ToLower text)).length = (TrimSpace text).length := by
    rw [TrimSpace_ToLower]
    exact List.length_map _ _
  have h4 := length_le_byteLen (TrimSpace text)
  have h5 : "//enum:".toList.length = 7 := rfl
  omega

theorem payloadOf_isSome_of_isDirective (text : GoString) (h : isDirective text = true) :
    ∃ payload, payloadOf text = some payload := by
  have h1 := sliceFrom_isSome (TrimSpace text) 7 (seven_le_byteLen_of_isDirective text h)
  obtain ⟨rest, hrest⟩ := Option.isSome_iff_exists.mp h1
  exact ⟨_, by rw [payloadOf, hrest]; rfl⟩

/-- The counter of the integer base types in terms of the text the loop body
takes as value: an entry for which this text is empty has as `Value` the decimal
numeral of the number of earlier such entries, and the other entries keep the
text. -/
theorem integer_counter_on_taken_values (comment payload typeName baseType : GoString)
    (tok : Token) (doc : Option (List GoString))
    (hpay : payloadOf comment = some payload) (hint : baseType ∈ integerTypes) :
    ∃ vals, parseEnumComment comment
          { Tok := tok, Doc := doc, Specs := [.typeSpec typeName (.ident baseType)] } =
        .ok { TypeName := typeName, BaseType := baseType, Values := vals } ∧
      vals.length = (entriesOf payload).length ∧
      ∀ (i : Nat) (entry : GoString), (entriesOf payload)[i]? = some entry →
        ∃ v : Value, vals[i]? = some v ∧
          (takenValue entry = [] →
            v.Value = sprintfD (((entriesOf payload).take i).countP
              (fun e => decide (takenValue e = [])))) ∧
          (takenValue entry ≠ [] → v.Value = takenValue entry) := by
  have hb := integerTypes_spec baseType hint
  refine ⟨_, parseEnumComment_ident comment payload tok doc typeName baseType hpay,
    deriveAll_length _ _ _, ?_⟩
  intro i entry hi
  rw [deriveAll_getElem?, hi]
  refine ⟨_, rfl, ?_, ?_⟩
  · intro hs
    show (deriveOne baseType _ entry).Value = _
    rw [deriveOne_bare _ _ _ hb.1 hb.2 hs, advances_integer _ hb.1 hb.2, Nat.zero_add]
  · intro hs
    show (deriveOne baseType _ entry).Value = _
    rw [deriveOne_supplied _ _ _ hb.1 hs]

/-- The quoting on base type `string` in terms of the text the loop body takes as
value: every `Value` is a text between two double quotes; a taken text without
quote character is put between quotes as it is, and an empty one yields the empty
string literal. -/
theorem string_quoted_on_taken_values (comment payload typeName : GoString)
    (tok : Token) (doc : Option (List GoString))
    (hpay : payloadOf comment = some payload) :
    ∃ vals, parseEnumComment comment
          { Tok := tok, Doc := doc, Specs := [.typeSpec typeName (.ident "string".toList)] } =
        .ok { TypeName := typeName, BaseType := "string".toList, Values := vals } ∧
      vals.length = (entriesOf payload).length ∧
      (∀ v ∈ vals, ∃ s, v.Value = '"' :: (s ++ ['"'])) ∧
      ∀ (i : Nat) (entry : GoString), (entriesOf payload)[i]? = some entry →
        ∃ v : Value, vals[i]? = some v ∧
          ('"' ∉ takenValue entry → v.Value = '"' :: (takenValue entry ++ ['"'])) ∧
          (takenValue entry = [] → v.Value = ['"', '"']) := by
  refine ⟨_, parseEnumComment_ident comment payload tok doc typeName _ hpay,
    deriveAll_length _ _ _, ?_, ?_⟩
  · intro v hv
    obtain ⟨e, n, _, hve⟩ := deriveAll_mem _ _ _ _ hv
    rw [hve, deriveOne_string]
    exact ⟨_, rfl⟩
  · intro i entry hi
    rw [deriveAll_getElem?, hi]
    refine ⟨_, rfl, ?_, ?_⟩
    · intro hq
      show (deriveOne "string".toList _ entry).Value = _
      rw [deriveOne_string]
      have ht : Trim (takenValue entry) "\"".toList = takenValue entry := by
        apply Trim_eq_self
        intro c hc hcq
        have : c = '"' := by simpa using hcq
        exact hq (this ▸ hc)
      show sprintfQuoted (Trim (takenValue entry) "\"".toList) = _
      rw [ht]
      rfl
    · intro hs
      show (deriveOne "string".toList _ entry).Value = _
      rw [deriveOne_string, hs]
      rfl

/-- C3, as the claim states it, fails: the entry `A=""x""` on `type T string` has
the supplied value `""x""`; with one leading and one trailing quote removed and the
rest re-quoted the literal would be `""x""`, and the code yields `"x"`. -/
theorem parseEnumComment_string_strips_every_quote :
    parseEnumComment "//enum: A=\"\"x\"\"".toList (typeDecl "T" "string") =
        .ok { TypeName := "T".toList, BaseType := "string".toList,
              Values := [⟨"A".toList, "\"x\"".toList⟩] } ∧
      suppliedText "A=\"\"x\"\"".toList = "\"\"x\"\"".toList ∧
      '"' :: (stripQuotesOnce (suppliedText "A=\"\"x\"\"".toList) ++ ['"']) =
        "\"\"x\"\"".toList ∧
      "\"x\"".toList ≠ '"' :: (stripQuotesOnce (suppliedText "A=\"\"x\"\"".toList) ++ ['"']) := by
  decide

/-- C4, as the claim states it, fails: `type T Other` names no string, integer,
float or bool type, and `parseEnumComment` returns a model with base type `Other`
instead of the unsupported-base-type error. -/
theorem parseEnumComment_accepts_any_identifier :
    parseEnumComment "//enum: A | B".toList (typeDecl "T" "Other") =
        .ok { TypeName := "T".toList, BaseType := "Other".toList,
              Values := [⟨"A".toList, []⟩, ⟨"B".toList, []⟩] } ∧
      parseEnumComment "//enum: A | B".toList (typeDecl "T" "Other") ≠
        .error "unsupported base type" := by
  decide

/-- C4, amended: for a declaration group with one type specification,
`parseEnumComment` returns the unsupported-base-type error exactly when the
underlying type is not a plain identifier (a composite or qualified type); every
plain identifier, whatever it names, is taken as the base type of a model. -/
theorem parseEnumComment_unsupported_iff (comment payload typeName : GoString)
    (type : Expr) (tok : Token) (doc : Option (List GoString))
    (hpay : payloadOf comment = some payload) :
    (parseEnumComment comment
          { Tok := tok, Doc := doc, Specs := [.typeSpec typeName type] } =
        .error "unsupported base type" ↔ ∀ name, type ≠ .ident name) ∧
      ∀ name, type = .ident name →
        ∃ vals, parseEnumComment comment
            { Tok := tok, Doc := doc, Specs := [.typeSpec typeName type] } =
          .ok { TypeName := typeName, BaseType := name, Values := vals } := by
  constructor
  · cases type with
    | ident b =>
      rw [parseEnumComment_ident comment payload tok doc typeName b hpay]
      constructor
      · intro h
        exact Outcome.noConfusion h
      · intro h
        exact absurd rfl (h b)
    | _ => simp [parseEnumComment, hpay]
  · intro name hname
    subst hname
    exact ⟨_, parseEnumComment_ident comment payload tok doc typeName name hpay⟩

/-- The slice type `type T []int` is refused, whatever the payload. -/
theorem parseEnumComment_unsupported_iff_witness :
    payloadOf "//enum: A | B".toList = some "A | B".toList ∧
      parseEnumComment "//enum: A | B".toList
          { Tok := .TYPE, Doc := none,
            Specs := [.typeSpec "T".toList (.arrayType (.ident "int".toList))] } =
        .error "unsupported base type" :=
  ⟨by decide,
    (parseEnumComment_unsupported_iff "//enum: A | B".toList "A | B".toList "T".toList
      (.arrayType (.ident "int".toList)) .TYPE none (by decide)).1.2
      (fun _ h => Expr.noConfusion h)⟩

/-- C5, as the claim states it, fails: the directive `//enum:` on `type T int` is
recognised, `parseEnumComment` succeeds on it, and the `Values` of the model are
empty. -/
theorem parseEnumComment_empty_values :
    isDirective "//enum:".toList = true ∧
      parseEnumComment "//enum:".toList (typeDecl "T" "int") =
        .ok { TypeName := "T".toList, BaseType := "int".toList, Values := [] } := by
  decide

/-- C5, amended: for every comment and declaration on which `parseEnumComment`
succeeds, the model has one member for each entry of the payload that is not
purely white space, and its `Values` are non-empty exactly when the payload has
such an entry. -/
theorem parseEnumComment_values_nonempty_iff (comment : GoString) (genDecl : GenDecl)
    (enum : Enum) (hok : parseEnumComment comment genDecl = .ok enum) :
    ∃ payload, payloadOf comment = some payload ∧
      enum.Values.length = (entriesOf payload).length ∧
      (enum.Values ≠ [] ↔ ∃ part ∈ payload.splitOn '|', TrimSpace part ≠ []) := by
  obtain ⟨payload, typeName, baseType, hpay, _, henum⟩ :=
    parseEnumComment_ok_inv comment genDecl enum hok
  refine ⟨payload, hpay, ?_, ?_⟩
  · rw [henum]
    exact deriveAll_length _ _ _
  · have hlen : enum.Values.length = (entriesOf payload).length := by
      rw [henum]
      exact deriveAll_length _ _ _
    rw [← List.length_pos, hlen, List.length_pos]
    unfold entriesOf
    constructor
    · intro h
      obtain ⟨e, he⟩ := List.exists_mem_of_ne_nil _ h
      rw [List.mem_filter, List.mem_map] at he
      obtain ⟨⟨part, hpart, hpe⟩, hne⟩ := he
      refine ⟨part, hpart, ?_⟩
      rw [hpe]
      simpa using hne
    · rintro ⟨part, hpart, hne⟩
      apply List.ne_nil_of_mem (a := TrimSpace part)
      rw [List.mem_filter, List.mem_map]
      exact ⟨⟨part, hpart, rfl⟩, by simpa using hne⟩

/-- The directive `//enum: A | | B` on `type T int` has two members. -/
theorem parseEnumComment_values_nonempty_iff_witness :
    parseEnumComment "//enum: A | | B".toList (typeDecl "T" "int") =
        .ok { TypeName := "T".toList, BaseType := "int".toList,
              Values := [⟨"A".toList, "0".toList⟩, ⟨"B".toList, "1".toList⟩] } ∧
      ∃ payload, payloadOf "//enum: A | | B".toList = some payload ∧
        [(⟨"A".toList, "0".toList⟩ : Value), ⟨"B".toList, "1".toList⟩].length =
          (entriesOf payload).length ∧
        ([(⟨"A".toList, "0".toList⟩ : Value), ⟨"B".toList, "1".toList⟩] ≠ [] ↔
          ∃ part ∈ payload.splitOn '|', TrimSpace part ≠ []) :=
  ⟨by decide,
    parseEnumComment_values_nonempty_iff "//enum: A | | B".toList (typeDecl "T" "int")
      { TypeName := "T".toList, BaseType := "int".toList,
        Values := [⟨"A".toList, "0".toList⟩, ⟨"B".toList, "1".toList⟩] } (by decide)⟩

/-- C6: the code at the entry `A=b=c` on `type T float64`. The entry is split at
every `=` and the piece between the first and the second `=` is taken: the member
has the value `b`, where the text after the first `=` is `b=c`. -/
theorem parseEnumComment_splits_at_every_equals :
    parseEnumComment "//enum: A=b=c".toList (typeDecl "T" "float64") =
        .ok { TypeName := "T".toList, BaseType := "float64".toList,
              Values := [⟨"A".toList, "b".toList⟩] } ∧
      Split "A=b=c".toList "=".toList = ["A".toList, "b".toList, "c".toList] ∧
      takenValue "A=b=c".toList = "b".toList := by
  decide

/-- C7: for every payload, `parseEnumComment` returns one member for each
non-blank entry, in the order of the payload: the names of the members are what is
obtained by splitting the payload at `|`, trimming every piece, leaving out the
pieces that are empty after trimming, and taking of each remaining piece the
trimmed text before its first `=`. -/
theorem parseEnumComment_names (comment payload typeName baseType : GoString)
    (tok : Token) (doc : Option (List GoString))
    (hpay : payloadOf comment = some payload) :
    ∃ vals, parseEnumComment comment
          { Tok := tok, Doc := doc, Specs := [.typeSpec typeName (.ident baseType)] } =
        .ok { TypeName := typeName, BaseType := baseType, Values := vals } ∧
      vals.map Value.Name =
        (((payload.splitOn '|').map TrimSpace).filter (fun e => decide (e ≠ []))).map
          (fun e => TrimSpace (e.takeWhile (fun c => decide (c ≠ '=')))) := by
  refine ⟨_, parseEnumComment_ident comment payload tok doc typeName baseType hpay, ?_⟩
  rw [deriveAll_map_Name]
  unfold entriesOf
  apply List.map_congr_left
  intro e _
  exact entryName_eq e

/-- The payload ` | B=2 || A | ` on `type T int` has the names `B` and `A`. -/
theorem parseEnumComment_names_witness :
    payloadOf "//enum: | B=2 || A | ".toList = some "| B=2 || A |".toList ∧
      parseEnumComment "//enum: | B=2 || A | ".toList (typeDecl "T" "int") =
        .ok { TypeName := "T".toList, BaseType := "int".toList,
              Values := [⟨"B".toList, "2".toList⟩, ⟨"A".toList, "0".toList⟩] } ∧
      ∃ vals, parseEnumComment "//enum: | B=2 || A | ".toList
            { Tok := .TYPE, Doc := none,
              Specs := [.typeSpec "T".toList (.ident "int".toList)] } =
          .ok { TypeName := "T".toList, BaseType := "int".toList, Values := vals } ∧
        vals.map Value.Name =
          ((("| B=2 || A |".toList.splitOn '|').map TrimSpace).filter
              (fun e => decide (e ≠ []))).map
            (fun e => TrimSpace (e.takeWhile (fun c => decide (c ≠ '=')))) :=
  ⟨by decide, by decide, parseEnumComment_names _ _ _ _ _ _ (by decide)⟩

/-- C8: for every directive comment, `parseEnumComment` returns the error
`unexpected type declaration` if and only if the declaration group does not hold
exactly one specification (the specifications of a type declaration group are
type specifications); the test comes before any value is derived, and no model is
returned for such a group. -/
theorem parseEnumComment_malformed_iff (comment payload : GoString) (genDecl : GenDecl)
    (hpay : payloadOf comment = some payload) :
    (parseEnumComment comment genDecl = .error "unexpected type declaration" ↔
        genDecl.Specs.length ≠ 1) ∧
      (genDecl.Specs.length ≠ 1 → ∀ enum, parseEnumComment comment genDecl ≠ .ok enum) := by
  obtain ⟨tok, doc, specs⟩ := genDecl
  have hbad : specs.length ≠ 1 →
      parseEnumComment comment { Tok := tok, Doc := doc, Specs := specs } =
        .error "unexpected type declaration" := by
    intro hlen
    simp [parseEnumComment, hpay, hlen]
  refine ⟨⟨?_, hbad⟩, ?_⟩
  · intro h hlen
    rcases specs with _ | ⟨sp, _ | ⟨sp2, rest⟩⟩
    · simp at hlen
    · cases sp with
      | importSpec => simp [parseEnumComment, hpay] at h
      | valueSpec => simp [parseEnumComment, hpay] at h
      | typeSpec name ty =>
        cases ty <;> simp [parseEnumComment, hpay] at h
    · simp at hlen
  · intro hlen enum h
    rw [hbad hlen] at h
    exact Outcome.noConfusion h

/-- Scenario D: a group of two type specifications under one directive. -/
theorem parseEnumComment_malformed_iff_witness :
    payloadOf "//enum: A | B".toList = some "A | B".toList ∧
      parseEnumComment "//enum: A | B".toList
          { Tok := .TYPE, Doc := none,
            Specs := [.typeSpec "T".toList (.ident "int".toList),
              .typeSpec "U".toList (.ident "int".toList)] } =
        .error "unexpected type declaration" :=
  ⟨by decide,
    (parseEnumComment_malformed_iff "//enum: A | B".toList "A | B".toList
      { Tok := .TYPE, Doc := none,
        Specs := [.typeSpec "T".toList (.ident "int".toList),
          .typeSpec "U".toList (.ident "int".toList)] } (by decide)).1.2 (by decide)⟩

/-- C10: the code at the lines `//  ENUM: A | B` and `// enum : A | B` on
`type T int`. Both are recognised as directives; the slice at the fixed offset 7
leaves `M: A | B` and `: A | B` as payloads, and the first member is named `M: A`
and `: A` instead of `A`. -/
theorem parseEnumComment_fixed_offset :
    isDirective "//  ENUM: A | B".toList = true ∧
      payloadOf "//  ENUM: A | B".toList = some "M: A | B".toList ∧
      ParseEnums [oneTypeFile "//  ENUM: A | B".toList] =
        .ok [{ TypeName := "T".toList, BaseType := "int".toList,
               Values := [⟨"M: A".toList, "0".toList⟩, ⟨"B".toList, "1".toList⟩] }] ∧
      isDirective "// enum : A | B".toList = true ∧
      payloadOf "// enum : A | B".toList = some ": A | B".toList ∧
      ParseEnums [oneTypeFile "// enum : A | B".toList] =
        .ok [{ TypeName := "T".toList, BaseType := "int".toList,
               Values := [⟨": A".toList, "0".toList⟩, ⟨"B".toList, "1".toList⟩] }] := by
  decide

/-! ## More lemmas on the entries -/

theorem floatBoolTypes_spec (b : GoString) (h : b ∈ floatBoolTypes) :
    b ≠ "string".toList ∧ Contains b "int".toList = false := by
  have hall : ∀ x ∈ floatBoolTypes,
      x ≠ "string".toList ∧ Contains x "int".toList = false := by
    decide
  exact hall b h

theorem deriveOne_verbatim (b : GoString) (k : Nat) (e : GoString) (hb : b ≠ "string".toList)
    (hc : Contains b "int".toList = false) :
    deriveOne b k e = { Name := entryName e, Value := takenValue e } := by
  unfold deriveOne
  rw [if_neg hb, hc, Bool.false_and]
  rfl

theorem splitOn_of_not_mem (c : Char) (s : GoString) (h : c ∉ s) : s.splitOn c = [s] := by
  induction s with
  | nil => rfl
  | cons x t ih =>
    have hx : x ≠ c := fun hxc => h (hxc ▸ List.mem_cons_self _ _)
    have ht : c ∉ t := fun hc => h (List.mem_cons_of_mem _ hc)
    have h2 : (x == c) = false := by simpa using hx
    rw [List.splitOn, List.splitOnP_cons, h2]
    rw [List.splitOn] at ih
    simp [ih ht]

theorem splitOn_append_cons (c : Char) (a b : GoString) (h : c ∉ a) :
    (a ++ c :: b).splitOn c = a :: b.splitOn c := by
  induction a with
  | nil => simp [List.splitOn, List.splitOnP_cons]
  | cons x t ih =>
    have hx : x ≠ c := fun hxc => h (hxc ▸ List.mem_cons_self _ _)
    have ht : c ∉ t := fun hc => h (List.mem_cons_of_mem _ hc)
    have h2 : (x == c) = false := by simpa using hx
    rw [List.cons_append, List.splitOn, List.splitOnP_cons, h2]
    rw [List.splitOn] at ih
    simp [ih ht, List.splitOn]

theorem takenValue_of_not_mem (e : GoString) (h : '=' ∉ e) : takenValue e = [] := by
  unfold takenValue
  have hs : Split e "=".toList = e.splitOn '=' := Split_singleton '=' e
  rw [hs, splitOn_of_not_mem '=' e h]
  rfl

theorem takenValue_of_one_equals (name v : GoString) (hn : '=' ∉ name) (hv : '=' ∉ v) :
    takenValue (name ++ '=' :: v) = TrimSpace v := by
  unfold takenValue
  have hs : Split (name ++ '=' :: v) "=".toList = (name ++ '=' :: v).splitOn '=' :=
    Split_singleton '=' _
  rw [hs, splitOn_append_cons '=' name v hn, splitOn_of_not_mem '=' v hv]
  rfl

/-- The values on the base types `float32`, `float64` and `bool` in terms of the
text the loop body takes as value: the `Value` of a member is this text, with no
quoting and no counter value. -/
theorem verbatim_on_taken_values (comment payload typeName baseType : GoString)
    (tok : Token) (doc : Option (List GoString))
    (hpay : payloadOf comment = some payload) (hfb : baseType ∈ floatBoolTypes) :
    ∃ vals, parseEnumComment comment
          { Tok := tok, Doc := doc, Specs := [.typeSpec typeName (.ident baseType)] } =
        .ok { TypeName := typeName, BaseType := baseType, Values := vals } ∧
      vals.length = (entriesOf payload).length ∧
      ∀ (i : Nat) (entry : GoString), (entriesOf payload)[i]? = some entry →
        ∃ v : Value, vals[i]? = some v ∧ v.Value = takenValue entry ∧
          ('=' ∉ entry → v.Value = []) ∧
          (∀ name w : GoString, entry = name ++ '=' :: w → '=' ∉ name → '=' ∉ w →
            v.Value = TrimSpace w) := by
  have hb := floatBoolTypes_spec baseType hfb
  refine ⟨_, parseEnumComment_ident comment payload tok doc typeName baseType hpay,
    deriveAll_length _ _ _, ?_⟩
  intro i entry hi
  rw [deriveAll_getElem?, hi]
  refine ⟨_, rfl, ?_, ?_, ?_⟩
  · show (deriveOne baseType _ entry).Value = _
    rw [deriveOne_verbatim _ _ _ hb.1 hb.2]
  · intro hne
    show (deriveOne baseType _ entry).Value = _
    rw [deriveOne_verbatim _ _ _ hb.1 hb.2]
    exact takenValue_of_not_mem entry hne
  · intro name w hentry hn hw
    show (deriveOne baseType _ entry).Value = _
    rw [deriveOne_verbatim _ _ _ hb.1 hb.2, hentry]
    exact takenValue_of_one_equals name w hn hw

/-! ## The supplied value of an entry

The spec takes as the supplied value of an entry the trimmed text after its first
`=` (`suppliedText`). The loop body takes the piece between the first and the
second `=` (`takenValue`). The two agree on the entries with at most one `=`.
-/

theorem takenValue_eq_suppliedText (e : GoString) (h : e.count '=' ≤ 1) :
    takenValue e = suppliedText e := by
  by_cases hmem : '=' ∈ e
  · have hne : e.dropWhile (fun c => decide (c ≠ '=')) ≠ [] := by
      intro hnil
      have hall := List.dropWhile_eq_nil_iff.mp hnil '=' hmem
      simp at hall
    obtain ⟨x, v, hxv⟩ := List.exists_cons_of_ne_nil hne
    have hx : x = '=' := by
      have hhead := List.head_dropWhile_not (fun c => decide (c ≠ '=')) e hne
      simp only [hxv, List.head_cons] at hhead
      simpa using hhead
    subst hx
    have hsplit : e = e.takeWhile (fun c => decide (c ≠ '=')) ++ '=' :: v := by
      rw [← hxv, List.takeWhile_append_dropWhile]
    have hname : '=' ∉ e.takeWhile (fun c => decide (c ≠ '=')) := by
      intro hin
      have := List.mem_takeWhile_imp hin
      simp at this
    have hv : '=' ∉ v := by
      rw [hsplit, List.count_append, List.count_cons_self] at h
      exact List.count_eq_zero.mp (by omega)
    have htaken : takenValue e = TrimSpace v := by
      rw [hsplit]
      exact takenValue_of_one_equals _ v hname hv
    rw [htaken]
    unfold suppliedText
    rw [hxv]
    rfl
  · rw [takenValue_of_not_mem e hmem]
    unfold suppliedText
    have hnil : e.dropWhile (fun c => decide (c ≠ '=')) = [] := by
      rw [List.dropWhile_eq_nil_iff]
      intro x hx
      have hxe : x ≠ '=' := fun hxe => hmem (hxe ▸ hx)
      simpa using hxe
    rw [hnil]
    rfl

/-- C1: the code on `type T int`. Scenario B with a fourth bare entry comes out as
the claim says. At `A==5 | B` the entry `A==5` supplies the value `=5`, and the
code, which takes the empty piece between the two `=`, gives it the counter value
`0` and advances the counter, so that `B` gets `1`; at `A=5=6 | C` the supplied
value `5=6` is cut to `5`. -/
theorem parseEnumComment_integer_second_equals :
    parseEnumComment "//enum: Active | Inactive | Pending=5 | Fourth".toList
        (typeDecl "Status" "int") =
      .ok { TypeName := "Status".toList, BaseType := "int".toList,
            Values := [⟨"Active".toList, "0".toList⟩, ⟨"Inactive".toList, "1".toList⟩,
              ⟨"Pending".toList, "5".toList⟩, ⟨"Fourth".toList, "2".toList⟩] } ∧
      entriesOf "A==5 | B".toList = ["A==5".toList, "B".toList] ∧
      suppliedText "A==5".toList = "=5".toList ∧
      parseEnumComment "//enum: A==5 | B".toList (typeDecl "T" "int") =
        .ok { TypeName := "T".toList, BaseType := "int".toList,
              Values := [⟨"A".toList, "0".toList⟩, ⟨"B".toList, "1".toList⟩] } ∧
      suppliedText "A=5=6".toList = "5=6".toList ∧
      parseEnumComment "//enum: A=5=6 | C".toList (typeDecl "T" "int") =
        .ok { TypeName := "T".toList, BaseType := "int".toList,
              Values := [⟨"A".toList, "5".toList⟩, ⟨"C".toList, "0".toList⟩] } := by
  decide

/-- C2: the code on `type Link string`. Scenario A comes out as the claim says. At
`URL=http://x/?a=b` the supplied value `http://x/?a=b` holds no quote character,
and the code, which takes the piece up to the second `=`, yields `"http://x/?a"`
instead of the supplied value between quotes. -/
theorem parseEnumComment_string_second_equals :
    parseEnumComment "//enum: RED=#FF0000 | GREEN=#00FF00 | BLUE".toList
        (typeDecl "Color" "string") =
      .ok { TypeName := "Color".toList, BaseType := "string".toList,
            Values := [⟨"RED".toList, "\"#FF0000\"".toList⟩,
              ⟨"GREEN".toList, "\"#00FF00\"".toList⟩, ⟨"BLUE".toList, "\"\"".toList⟩] } ∧
      suppliedText "URL=http://x/?a=b".toList = "http://x/?a=b".toList ∧
      '"' ∉ suppliedText "URL=http://x/?a=b".toList ∧
      parseEnumComment "//enum: URL=http://x/?a=b".toList (typeDecl "Link" "string") =
        .ok { TypeName := "Link".toList, BaseType := "string".toList,
              Values := [⟨"URL".toList, "\"http://x/?a\"".toList⟩] } := by
  decide

/-- C13: the code on `type F float64`. The payload `A | B=1.5` comes out as the
claim says. At `MAX=1.5=x | MIN` the supplied value of the first entry is `1.5=x`,
and the code, which takes the piece up to the second `=`, yields `1.5`. -/
theorem parseEnumComment_float_second_equals :
    parseEnumComment "//enum: A | B=1.5".toList (typeDecl "F" "float64") =
      .ok { TypeName := "F".toList, BaseType := "float64".toList,
            Values := [⟨"A".toList, []⟩, ⟨"B".toList, "1.5".toList⟩] } ∧
      suppliedText "MAX=1.5=x".toList = "1.5=x".toList ∧
      parseEnumComment "//enum: MAX=1.5=x | MIN".toList (typeDecl "F" "float64") =
        .ok { TypeName := "F".toList, BaseType := "float64".toList,
              Values := [⟨"MAX".toList, "1.5".toList⟩, ⟨"MIN".toList, []⟩] } := by
  decide

/-- C3, amended: on base type `string`, for every entry that holds at most one `=`
and whose supplied value is `w`, the member's `Value` is `s` between two double
quotes, where `s` is `w` without all of its leading and all of its trailing double
quotes: `w` is `k` quotes, `s`, and `m` quotes, and `s` neither starts nor ends
with a quote. The entries with a further `=` are left out. -/
theorem parseEnumComment_string_trims_quotes (comment payload typeName : GoString)
    (tok : Token) (doc : Option (List GoString))
    (hpay : payloadOf comment = some payload) :
    ∃ vals, parseEnumComment comment
          { Tok := tok, Doc := doc, Specs := [.typeSpec typeName (.ident "string".toList)] } =
        .ok { TypeName := typeName, BaseType := "string".toList, Values := vals } ∧
      ∀ (i : Nat) (entry : GoString), (entriesOf payload)[i]? = some entry →
        entry.count '=' ≤ 1 →
        ∃ (v : Value) (s : GoString) (k m : Nat), vals[i]? = some v ∧
          v.Value = '"' :: (s ++ ['"']) ∧
          suppliedText entry = List.replicate k '"' ++ (s ++ List.replicate m '"') ∧
          s.head? ≠ some '"' ∧ s.getLast? ≠ some '"' := by
  refine ⟨_, parseEnumComment_ident comment payload tok doc typeName _ hpay, ?_⟩
  intro i entry hi hone
  rw [deriveAll_getElem?, hi]
  obtain ⟨k, m, h1, h2, h3⟩ := Trim_spec (suppliedText entry) '"'
  refine ⟨_, Trim (suppliedText entry) ['"'], k, m, rfl, ?_, h1, h2, h3⟩
  show (deriveOne "string".toList _ entry).Value = _
  rw [deriveOne_string, takenValue_eq_suppliedText entry hone]
  rfl

/-- The entries `A=""x""` and `B= "y" ` on `type T string`: `x` and `y` between
two quotes. -/
theorem parseEnumComment_string_trims_quotes_witness :
    payloadOf "//enum: A=\"\"x\"\" | B= \"y\" ".toList = some "A=\"\"x\"\" | B= \"y\"".toList ∧
      parseEnumComment "//enum: A=\"\"x\"\" | B= \"y\" ".toList (typeDecl "T" "string") =
        .ok { TypeName := "T".toList, BaseType := "string".toList,
              Values := [⟨"A".toList, "\"x\"".toList⟩, ⟨"B".toList, "\"y\"".toList⟩] } ∧
      ∃ vals, parseEnumComment "//enum: A=\"\"x\"\" | B= \"y\" ".toList
            { Tok := .TYPE, Doc := none,
              Specs := [.typeSpec "T".toList (.ident "string".toList)] } =
          .ok { TypeName := "T".toList, BaseType := "string".toList, Values := vals } ∧
        ∀ (i : Nat) (entry : GoString),
          (entriesOf "A=\"\"x\"\" | B= \"y\"".toList)[i]? = some entry →
          entry.count '=' ≤ 1 →
          ∃ (v : Value) (s : GoString) (k m : Nat), vals[i]? = some v ∧
            v.Value = '"' :: (s ++ ['"']) ∧
            suppliedText entry = List.replicate k '"' ++ (s ++ List.replicate m '"') ∧
            s.head? ≠ some '"' ∧ s.getLast? ≠ some '"' :=
  ⟨by decide, by decide, parseEnumComment_string_trims_quotes _ _ _ _ _ (by decide)⟩

/-! ## Lemmas on the scan -/

theorem runEvents_append (a b : List ScanEvent) (enums : List Enum) :
    runEvents (a ++ b) enums =
      match runEvents a enums with
      | .ok out => runEvents b out
      | .error err => .error err
      | .panic => .panic := by
  induction a generalizing enums with
  | nil => rfl
  | cons ev rest ih =>
    rw [List.cons_append, runEvents, runEvents]
    cases ev.result with
    | ok enum => exact ih _
    | error err => rfl
    | panic => rfl

theorem scanComments_eq (genDecl : GenDecl) (doc : List GoString) (enums : List Enum) :
    scanComments genDecl doc enums =
      runEvents ((doc.filter isDirective).map (fun text => .directive text genDecl)) enums := by
  induction doc generalizing enums with
  | nil => rfl
  | cons text rest ih =>
    rw [scanComments]
    by_cases hd : isDirective text = true
    · rw [if_pos hd, List.filter_cons_of_pos hd, List.map_cons, runEvents]
      show _ = match parseEnumComment text genDecl with
        | .ok enum => _
        | .error err => _
        | .panic => _
      cases parseEnumComment text genDecl with
      | ok enum => exact ih _
      | error err => rfl
      | panic => rfl
    · rw [if_neg hd, List.filter_cons_of_neg hd]
      exact ih _

theorem scanDecls_eq (decls : List Decl) (enums : List Enum) :
    scanDecls decls enums = runEvents (decls.flatMap eventsOfDecl) enums := by
  induction decls generalizing enums with
  | nil => rfl
  | cons decl rest ih =>
    rw [List.flatMap_cons, runEvents_append]
    cases decl with
    | genDecl g =>
      obtain ⟨tok, doc, specs⟩ := g
      cases tok <;> cases doc <;>
        simp only [scanDecls, eventsOfDecl, runEvents, ih, scanComments_eq]
    | funcDecl => simp only [scanDecls, eventsOfDecl, runEvents, ih]
    | badDecl => simp only [scanDecls, eventsOfDecl, runEvents, ih]

theorem isSkipped_eq (file : SourceFile) :
    isSkipped file =
      (!HasSuffix file.path ".go".toList || HasSuffix file.path "_enum.go".toList) := by
  unfold isSkipped HasSuffix
  have h1 : ".go".toList.isSuffixOf file.path = true ↔ ".go".toList <:+ file.path :=
    List.isSuffixOf_iff_suffix
  have h2 : "_enum.go".toList.isSuffixOf file.path = true ↔ "_enum.go".toList <:+ file.path :=
    List.isSuffixOf_iff_suffix
  cases ha : ".go".toList.isSuffixOf file.path <;>
    cases hb : "_enum.go".toList.isSuffixOf file.path <;>
    rw [ha] at h1 <;> rw [hb] at h2
  · exact decide_eq_true (Or.inl (fun h => absurd (h1.mpr h) (by decide)))
  · exact decide_eq_true (Or.inr (h2.mp rfl))
  · exact decide_eq_false (fun h => h.elim (fun hn => hn (h1.mp rfl))
      (fun hs => absurd (h2.mpr hs) (by decide)))
  · exact decide_eq_true (Or.inr (h2.mp rfl))

theorem scanFiles_eq (files : List SourceFile) (enums : List Enum) :
    scanFiles files enums = runEvents (eventsOf files) enums := by
  unfold eventsOf
  induction files generalizing enums with
  | nil => rfl
  | cons file rest ih =>
    rw [List.flatMap_cons, runEvents_append, scanFiles, ← isSkipped_eq, eventsOfFile]
    by_cases hs : isSkipped file = true
    · rw [if_pos hs, if_pos hs]
      exact ih _
    · rw [if_neg hs, if_neg hs]
      cases hparsed : file.parsed with
      | error err => rfl
      | ok decls =>
        simp only [scanDecls_eq]
        cases runEvents (decls.flatMap eventsOfDecl) enums with
        | ok out => exact ih _
        | error err => rfl
        | panic => rfl

theorem ParseEnums_eq (files : List SourceFile) :
    ParseEnums files = runEvents (eventsOf files) [] :=
  scanFiles_eq files []

theorem runEvents_ok_iff (evs : List ScanEvent) (enums out : List Enum) :
    runEvents evs enums = .ok out ↔
      ∃ new, out = enums ++ new ∧
        List.Forall₂ (fun ev enum => ScanEvent.result ev = .ok enum) evs new := by
  induction evs generalizing enums with
  | nil =>
    rw [runEvents]
    constructor
    · intro h
      exact ⟨[], by rw [List.append_nil]; exact (Outcome.ok.inj h).symm, List.Forall₂.nil⟩
    · rintro ⟨new, hout, hall⟩
      cases hall
      rw [hout, List.append_nil]
  | cons ev rest ih =>
    rw [runEvents]
    cases hres : ev.result with
    | ok enum =>
      show runEvents rest (enums ++ [enum]) = .ok out ↔ _
      rw [ih]
      constructor
      · rintro ⟨new, hout, hall⟩
        exact ⟨enum :: new, by rw [hout, List.append_assoc]; rfl, List.Forall₂.cons hres hall⟩
      · rintro ⟨new, hout, hall⟩
        cases hall with
        | cons hhead htail =>
          rename_i e new2
          rw [hres] at hhead
          have he : e = enum := (Outcome.ok.inj hhead).symm
          subst he
          exact ⟨new2, by rw [hout, List.append_assoc]; rfl, htail⟩
    | error err =>
      constructor
      · intro h
        exact Outcome.noConfusion h
      · rintro ⟨new, _, hall⟩
        cases hall with
        | cons hhead _ =>
          rw [hres] at hhead
          exact Outcome.noConfusion hhead
    | panic =>
      constructor
      · intro h
        exact Outcome.noConfusion h
      · rintro ⟨new, _, hall⟩
        cases hall with
        | cons hhead _ =>
          rw [hres] at hhead
          exact Outcome.noConfusion hhead

theorem runEvents_first_error (pre post : List ScanEvent) (ev : ScanEvent)
    (enums : List Enum) (err : String)
    (hpre : ∀ e ∈ pre, ∃ enum, ScanEvent.result e = .ok enum)
    (herr : ev.result = .error err) :
    runEvents (pre ++ ev :: post) enums = .error err := by
  induction pre generalizing enums with
  | nil =>
    rw [List.nil_append, runEvents, herr]
  | cons e rest ih =>
    obtain ⟨enum, he⟩ := hpre e (List.mem_cons_self _ _)
    rw [List.cons_append, runEvents, he]
    exact ih _ (fun x hx => hpre x (List.mem_cons_of_mem _ hx))

theorem runEvents_error_inv (evs : List ScanEvent) (enums : List Enum) (err : String)
    (h : runEvents evs enums = .error err) :
    ∃ pre ev post, evs = pre ++ ev :: post ∧
      (∀ e ∈ pre, ∃ enum, ScanEvent.result e = .ok enum) ∧ ev.result = .error err := by
  induction evs generalizing enums with
  | nil => exact Outcome.noConfusion h
  | cons e rest ih =>
    rw [runEvents] at h
    cases hres : e.result with
    | ok enum =>
      rw [hres] at h
      obtain ⟨pre, ev, post, hsplit, hpre, herr⟩ := ih _ h
      refine ⟨e :: pre, ev, post, by rw [hsplit]; rfl, ?_, herr⟩
      intro x hx
      rcases List.mem_cons.mp hx with hxe | hxp
      · exact ⟨enum, hxe ▸ hres⟩
      · exact hpre x hxp
    | error err2 =>
      rw [hres] at h
      have herr : (Outcome.error err2 : Outcome Enum) = Outcome.error err := by
        injection h with h1
        rw [h1]
      exact ⟨[], e, rest, rfl, fun x hx => absurd hx (List.not_mem_nil x),
        by rw [hres]; exact herr⟩
    | panic =>
      rw [hres] at h
      exact Outcome.noConfusion h

theorem parseEnumComment_ne_panic (text : GoString) (genDecl : GenDecl)
    (h : isDirective text = true) : parseEnumComment text genDecl ≠ .panic := by
  obtain ⟨payload, hpay⟩ := payloadOf_isSome_of_isDirective text h
  obtain ⟨tok, doc, specs⟩ := genDecl
  rcases specs with _ | ⟨sp, _ | ⟨sp2, rest⟩⟩
  · simp [parseEnumComment, hpay]
  · cases sp with
    | importSpec => simp [parseEnumComment, hpay]
    | valueSpec => simp [parseEnumComment, hpay]
    | typeSpec name ty => cases ty <;> simp [parseEnumComment, hpay]
  · simp [parseEnumComment, hpay]

theorem isDirective_of_mem_eventsOf (files : List SourceFile) (text : GoString)
    (genDecl : GenDecl) (h : ScanEvent.directive text genDecl ∈ eventsOf files) :
    isDirective text = true := by
  unfold eventsOf at h
  obtain ⟨file, _, hfile⟩ := List.mem_flatMap.mp h
  unfold eventsOfFile at hfile
  split at hfile
  · exact absurd hfile (List.not_mem_nil _)
  · split at hfile
    · rw [List.mem_singleton] at hfile
      exact ScanEvent.noConfusion hfile
    · obtain ⟨decl, _, hdecl⟩ := List.mem_flatMap.mp hfile
      unfold eventsOfDecl at hdecl
      split at hdecl
      · split at hdecl
        · obtain ⟨t, ht, heq⟩ := List.mem_map.mp hdecl
          have htext : t = text := by
            injection heq
          rw [← htext]
          exact (List.mem_filter.mp ht).2
        · exact absurd hdecl (List.not_mem_nil _)
      · exact absurd hdecl (List.not_mem_nil _)

theorem runEvents_ne_panic (evs : List ScanEvent) (enums : List Enum)
    (h : ∀ ev ∈ evs, ScanEvent.result ev ≠ .panic) : runEvents evs enums ≠ .panic := by
  induction evs generalizing enums with
  | nil =>
    intro hp
    exact Outcome.noConfusion hp
  | cons e rest ih =>
    rw [runEvents]
    cases hres : e.result with
    | ok enum => exact ih _ (fun x hx => h x (List.mem_cons_of_mem _ hx))
    | error err =>
      intro hp
      exact Outcome.noConfusion hp
    | panic => exact absurd hres (h e (List.mem_cons_self _ _))

theorem ParseEnums_ne_panic (files : List SourceFile) : ParseEnums files ≠ .panic := by
  rw [ParseEnums_eq]
  apply runEvents_ne_panic
  intro ev hev
  cases ev with
  | parseFailure err =>
    intro hp
    exact Outcome.noConfusion hp
  | directive text genDecl =>
    exact parseEnumComment_ne_panic text genDecl (isDirective_of_mem_eventsOf files _ _ hev)

theorem eventsOf_filter_isSkipped (files : List SourceFile) :
    eventsOf (files.filter isSkipped) = [] := by
  unfold eventsOf
  rw [List.flatMap_eq_nil_iff]
  intro file hfile
  unfold eventsOfFile
  rw [if_pos (List.mem_filter.mp hfile).2]

theorem eventsOf_filter_scanned (files : List SourceFile) :
    eventsOf (files.filter (fun f => !isSkipped f)) = eventsOf files := by
  unfold eventsOf
  induction files with
  | nil => rfl
  | cons file rest ih =>
    by_cases hs : isSkipped file = true
    · rw [List.filter_cons_of_neg (by simp [hs]), List.flatMap_cons, ih]
      unfold eventsOfFile
      rw [if_pos hs, List.nil_append]
    · rw [List.filter_cons_of_pos (by simpa using hs), List.flatMap_cons, List.flatMap_cons, ih]

theorem forall₂_getElem? {R : ScanEvent → Enum → Prop} {evs : List ScanEvent}
    {enums : List Enum} (h : List.Forall₂ R evs enums) (i : Nat) (ev : ScanEvent)
    (enum : Enum) (hev : evs[i]? = some ev) (henum : enums[i]? = some enum) : R ev enum := by
  induction h generalizing i with
  | nil => simp at hev
  | cons hhead _ ih =>
    cases i with
    | zero =>
      simp only [List.getElem?_cons_zero, Option.some.injEq] at hev henum
      rw [← hev, ← henum]
      exact hhead
    | succ j =>
      simp only [List.getElem?_cons_succ] at hev henum
      exact ih j hev henum

/-! ## The claims on `ParseEnums` -/

/-- C14: `ParseEnums` leaves out every path that does not end in `.go` or that
ends in `_enum.go`, whatever the parser would make of it: a list of such paths
yields the empty model list and no error, and the result for any list is the
result for the list without such paths. -/
theorem ParseEnums_skips (files : List SourceFile) :
    ParseEnums (files.filter isSkipped) = .ok [] ∧
      ((∀ file ∈ files, isSkipped file = true) → ParseEnums files = .ok []) ∧
      ParseEnums (files.filter (fun f => !isSkipped f)) = ParseEnums files := by
  have h1 : ParseEnums (files.filter isSkipped) = .ok [] := by
    rw [ParseEnums_eq, eventsOf_filter_isSkipped]
    rfl
  refine ⟨h1, ?_, ?_⟩
  · intro hall
    have hf : files.filter isSkipped = files := List.filter_eq_self.mpr hall
    rw [hf] at h1
    exact h1
  · rw [ParseEnums_eq, ParseEnums_eq, eventsOf_filter_scanned]

/-- The paths `notes.txt` and `color_enum.go` are left out although the parser
refuses both; `status.go` between them is scanned. -/
theorem ParseEnums_skips_witness :
    ParseEnums [brokenFile "notes.txt" "syntax error",
        brokenFile "color_enum.go" "syntax error"] = .ok [] ∧
      ParseEnums [brokenFile "notes.txt" "syntax error",
          fileWith "status.go" ["//enum: A"] "Status" "int",
          brokenFile "color_enum.go" "syntax error"] =
        ParseEnums [fileWith "status.go" ["//enum: A"] "Status" "int"] :=
  ⟨(ParseEnums_skips [brokenFile "notes.txt" "syntax error",
      brokenFile "color_enum.go" "syntax error"]).2.1 (by decide),
    by decide⟩

/-- C17: `ParseEnums` returns an error exactly when some event of the scan fails
after events that all came to a model (a scanned file that does not parse, or a
directive on which `parseEnumComment` fails), and the error is that of this first
failure; the error is returned without a model list (`return nil, err`), whatever
the models extracted before and whatever comes later in the list of files. A
model list is returned only when every event came to a model, and the scan never
panics. -/
theorem ParseEnums_fails_fast (files later : List SourceFile) (err : String) :
    (ParseEnums files = .error err ↔
        ∃ pre ev post, eventsOf files = pre ++ ev :: post ∧
          (∀ e ∈ pre, ∃ enum, ScanEvent.result e = .ok enum) ∧
          ScanEvent.result ev = .error err) ∧
      (ParseEnums files = .error err → ParseEnums (files ++ later) = .error err) ∧
      (∀ enums, ParseEnums files = .ok enums →
        ∀ e ∈ eventsOf files, ∃ enum, ScanEvent.result e = .ok enum) ∧
      ParseEnums files ≠ .panic := by
  have hiff : ParseEnums files = .error err ↔
      ∃ pre ev post, eventsOf files = pre ++ ev :: post ∧
        (∀ e ∈ pre, ∃ enum, ScanEvent.result e = .ok enum) ∧
        ScanEvent.result ev = .error err := by
    rw [ParseEnums_eq]
    constructor
    · exact runEvents_error_inv _ _ _
    · rintro ⟨pre, ev, post, hsplit, hpre, herr⟩
      rw [hsplit]
      exact runEvents_first_error pre post ev [] err hpre herr
  refine ⟨hiff, ?_, ?_, ParseEnums_ne_panic files⟩
  · intro h
    obtain ⟨pre, ev, post, hsplit, hpre, herr⟩ := hiff.mp h
    rw [ParseEnums_eq]
    have hev : eventsOf (files ++ later) = pre ++ ev :: (post ++ eventsOf later) := by
      unfold eventsOf at hsplit ⊢
      rw [List.flatMap_append, hsplit, List.append_assoc]
      rfl
    rw [hev]
    exact runEvents_first_error pre _ ev [] err hpre herr
  · intro enums h e he
    rw [ParseEnums_eq, runEvents_ok_iff] at h
    obtain ⟨new, _, hall⟩ := h
    obtain ⟨i, hi⟩ := List.mem_iff_getElem?.mp he
    have hlen := hall.length_eq
    have hlt : i < new.length := by
      rw [← hlen]
      exact (List.getElem?_eq_some_iff.mp hi).1
    exact ⟨new[i], forall₂_getElem? hall i e new[i] hi (List.getElem?_eq_getElem hlt)⟩

/-- A model from `a.go`, then the file `b.go` that does not parse: the error of
`b.go` is returned, also when further files follow. -/
theorem ParseEnums_fails_fast_witness :
    ParseEnums [fileWith "a.go" ["//enum: A"] "T" "int", brokenFile "b.go" "syntax error"] =
        .error "syntax error" ∧
      ParseEnums ([fileWith "a.go" ["//enum: A"] "T" "int", brokenFile "b.go" "syntax error"] ++
          [fileWith "c.go" ["//enum: B"] "U" "int"]) = .error "syntax error" :=
  ⟨by decide,
    (ParseEnums_fails_fast
      [fileWith "a.go" ["//enum: A"] "T" "int", brokenFile "b.go" "syntax error"]
      [fileWith "c.go" ["//enum: B"] "U" "int"] "syntax error").2.1 (by decide)⟩

/-- C19: for every comment text that `ParseEnums` takes for a directive (its
lower-cased, trimmed form without spaces starts with `//enum:`), the trimmed
comment text has at least 7 bytes, so that the slice at offset 7 in
`parseEnumComment` is in range and the call does not panic. -/
theorem slice_in_range_of_isDirective (text : GoString)
    (h : HasPrefix (ReplaceAll (TrimSpace (ToLower text)) " ".toList []) "//enum:".toList =
      true) :
    7 ≤ byteLen (TrimSpace text) ∧
      (∃ rest, sliceFrom 7 (TrimSpace text) = some rest) ∧
      ∀ genDecl, parseEnumComment text genDecl ≠ .panic := by
  have hd : isDirective text = true := h
  have h7 := seven_le_byteLen_of_isDirective text hd
  exact ⟨h7, Option.isSome_iff_exists.mp (sliceFrom_isSome _ _ h7),
    fun genDecl => parseEnumComment_ne_panic text genDecl hd⟩

/-- The shortest directive, `//enum:` between white space: its trimmed text has
7 bytes and the slice is empty. -/
theorem slice_in_range_of_isDirective_witness :
    HasPrefix (ReplaceAll (TrimSpace (ToLower " //ENUM:\t".toList)) " ".toList [])
        "//enum:".toList = true ∧
      byteLen (TrimSpace " //ENUM:\t".toList) = 7 ∧
      sliceFrom 7 (TrimSpace " //ENUM:\t".toList) = some [] ∧
      (7 ≤ byteLen (TrimSpace " //ENUM:\t".toList) ∧
        (∃ rest, sliceFrom 7 (TrimSpace " //ENUM:\t".toList) = some rest) ∧
        ∀ genDecl, parseEnumComment " //ENUM:\t".toList genDecl ≠ .panic) :=
  ⟨by decide, by decide, by decide,
    slice_in_range_of_isDirective " //ENUM:\t".toList (by decide)⟩

/-- C20: `ParseEnums` returns the model list `enums` exactly when `enums` holds,
for every recognised directive line, in the order of the files, of the
declarations of a file and of the lines of a comment block, the model that
`parseEnumComment` returns for it: one model for each line and nothing else. The
models of the directive lines of one declaration follow one another and have the
type name and the base type of that declaration. -/
theorem ParseEnums_models (files : List SourceFile) (enums : List Enum) :
    (ParseEnums files = .ok enums ↔
        List.Forall₂ (fun ev enum => ScanEvent.result ev = .ok enum)
          (eventsOf files) enums) ∧
      (ParseEnums files = .ok enums →
        enums.length = (eventsOf files).length ∧
        ∀ (i : Nat) (ev : ScanEvent) (enum : Enum),
          (eventsOf files)[i]? = some ev → enums[i]? = some enum →
          ∃ text genDecl, ev = .directive text genDecl ∧ isDirective text = true ∧
            parseEnumComment text genDecl = .ok enum ∧
            genDecl.Specs = [.typeSpec enum.TypeName (.ident enum.BaseType)]) := by
  have hiff : ParseEnums files = .ok enums ↔
      List.Forall₂ (fun ev enum => ScanEvent.result ev = .ok enum)
        (eventsOf files) enums := by
    rw [ParseEnums_eq, runEvents_ok_iff]
    constructor
    · rintro ⟨new, hout, hall⟩
      rw [hout, List.nil_append]
      exact hall
    · intro hall
      exact ⟨enums, (List.nil_append _).symm, hall⟩
  refine ⟨hiff, ?_⟩
  intro hok
  have hall := hiff.mp hok
  refine ⟨hall.length_eq.symm, ?_⟩
  intro i ev enum hev henum
  have hres := forall₂_getElem? hall i ev enum hev henum
  cases ev with
  | parseFailure err => exact Outcome.noConfusion hres
  | directive text genDecl =>
    have hres2 : parseEnumComment text genDecl = .ok enum := hres
    obtain ⟨_, typeName, baseType, _, hspecs, henumeq⟩ :=
      parseEnumComment_ok_inv text genDecl enum hres2
    refine ⟨text, genDecl, rfl,
      isDirective_of_mem_eventsOf files text genDecl (List.getElem?_mem hev), hres2, ?_⟩
    rw [hspecs, henumeq]

/-- Two directive lines over `type Status int`, around a plain comment line: two
models named `Status`, in the order of the lines. -/
theorem ParseEnums_models_witness :
    ParseEnums [twoDirectiveFile] =
        .ok [{ TypeName := "Status".toList, BaseType := "int".toList,
               Values := [⟨"A".toList, "0".toList⟩, ⟨"B".toList, "1".toList⟩] },
             { TypeName := "Status".toList, BaseType := "int".toList,
               Values := [⟨"C".toList, "0".toList⟩] }] ∧
      [({ TypeName := "Status".toList, BaseType := "int".toList,
          Values := [⟨"A".toList, "0".toList⟩, ⟨"B".toList, "1".toList⟩] } : Enum),
        { TypeName := "Status".toList, BaseType := "int".toList,
          Values := [⟨"C".toList, "0".toList⟩] }].length =
        (eventsOf [twoDirectiveFile]).length :=
  ⟨by decide,
    ((ParseEnums_models [twoDirectiveFile]
      [{ TypeName := "Status".toList, BaseType := "int".toList,
         Values := [⟨"A".toList, "0".toList⟩, ⟨"B".toList, "1".toList⟩] },
       { TypeName := "Status".toList, BaseType := "int".toList,
         Values := [⟨"C".toList, "0".toList⟩] }]).2 (by decide)).1⟩

/-! ## The derivation of a textual value -/

theorem TrimSpace_sprintfQuoted (s : GoString) :
    TrimSpace (sprintfQuoted s) = sprintfQuoted s := by
  unfold TrimSpace sprintfQuoted
  rw [List.dropWhile_cons_of_neg (by decide)]
  have h : '"' :: (s ++ ['"']) = ('"' :: s) ++ ['"'] := rfl
  rw [h, List.rdropWhile_concat_neg _ _ _ (by decide)]

theorem rdropWhile_dropWhile_concat (p : Char → Bool) (q : Char) (hq : p q = true)
    (t : GoString) :
    ((t ++ [q]).dropWhile p).rdropWhile p = (t.dropWhile p).rdropWhile p := by
  induction t with
  | nil =>
    rw [List.nil_append, List.dropWhile_cons_of_pos hq]
  | cons x t ih =>
    by_cases hx : p x = true
    · rw [List.cons_append, List.dropWhile_cons_of_pos hx, List.dropWhile_cons_of_pos hx]
      exact ih
    · rw [List.cons_append, List.dropWhile_cons_of_neg hx, List.dropWhile_cons_of_neg hx]
      have h : x :: (t ++ [q]) = (x :: t) ++ [q] := rfl
      rw [h, List.rdropWhile_concat_pos _ _ _ hq]

theorem Trim_sprintfQuoted (t : GoString) :
    Trim (sprintfQuoted t) "\"".toList = Trim t "\"".toList := by
  unfold Trim sprintfQuoted
  rw [List.dropWhile_cons_of_pos (by decide)]
  exact rdropWhile_dropWhile_concat _ '"' (by decide) t

theorem Trim_idem (s cutset : GoString) : Trim (Trim s cutset) cutset = Trim s cutset := by
  unfold Trim
  rw [dropWhile_rdropWhile_dropWhile, List.rdropWhile_idempotent]

/-- C18: the derivation of a textual value (trim the white space, trim the double
quotes at both ends, put the text between two quotes) is idempotent: the value
derived from a derived value is that value again. A supplied value and the same
supplied value between two quotes have the same derived value, as have the entries
`N=v` and `N="v"`; the derivation is the one of the loop body on base type
`string`. -/
theorem stringValue_idempotent (val : GoString) :
    stringValue (stringValue val) = stringValue val ∧
      stringValue ('"' :: (TrimSpace val ++ ['"'])) = stringValue val ∧
      (∀ (k : Nat) (entry : GoString),
        (deriveOne "string".toList k entry).Value = stringValue (takenValue entry)) ∧
      parseValues "string".toList "N=v".toList = parseValues "string".toList "N=\"v\"".toList := by
  refine ⟨?_, ?_, ?_, by decide⟩
  · unfold stringValue
    rw [TrimSpace_sprintfQuoted, Trim_sprintfQuoted, Trim_idem]
  · have h : '"' :: (TrimSpace val ++ ['"']) = sprintfQuoted (TrimSpace val) := rfl
    rw [h]
    unfold stringValue
    rw [TrimSpace_sprintfQuoted, Trim_sprintfQuoted]
  · intro k entry
    unfold deriveOne stringValue
    rw [if_pos rfl]

/-! ## Lemmas on the line scanner and on the guard -/

theorem Contains_iff_occurs (s sub : GoString) : Contains s sub = true ↔ sub <:+: s := by
  unfold Contains
  rw [List.any_eq_true, List.infix_iff_prefix_suffix]
  constructor
  · rintro ⟨t, ht, hpre⟩
    exact ⟨t, List.isPrefixOf_iff_prefix.mp hpre, (List.mem_tails t s).mp ht⟩
  · rintro ⟨t, hpre, hsuf⟩
    exact ⟨t, (List.mem_tails t s).mpr hsuf, List.isPrefixOf_iff_prefix.mpr hpre⟩

theorem headerText_getLast? (packageName typeName : GoString) :
    (headerText packageName typeName).getLast? = some '.' := by
  unfold headerText
  exact List.getLast?_concat _

theorem infix_dropCR (h l : GoString) (hlast : h.getLast? = some '.') (hin : h <:+: l) :
    h <:+: dropCR l := by
  unfold dropCR
  split
  · rename_i hcr
    obtain ⟨a, b, hab⟩ := hin
    cases hb : b.getLast? with
    | none =>
      have hbnil : b = [] := List.getLast?_eq_none_iff.mp hb
      rw [← hab, hbnil, List.append_nil, List.getLast?_append, hlast] at hcr
      simp at hcr
    | some c =>
      have hb2 := List.dropLast_append_getLast? c hb
      refine ⟨a, b.dropLast, ?_⟩
      rw [← hab, ← hb2, ← List.append_assoc, List.dropLast_concat, List.dropLast_concat]
  · exact hin

theorem takeWhile_getElem? (p : GoString → Bool) (xs : List GoString) (i : Nat)
    (h : ∀ l ∈ xs.take (i + 1), p l = true) : (xs.takeWhile p)[i]? = xs[i]? := by
  induction xs generalizing i with
  | nil => rfl
  | cons x t ih =>
    have hx : p x = true := h x (by simp)
    rw [List.takeWhile_cons_of_pos hx]
    cases i with
    | zero => rw [List.getElem?_cons_zero, List.getElem?_cons_zero]
    | succ j =>
      rw [List.getElem?_cons_succ, List.getElem?_cons_succ]
      apply ih
      intro l hl
      exact h l (by rw [List.take_succ_cons]; exact List.mem_cons_of_mem _ hl)

theorem scanLines_getElem? (content line : GoString) (i : Nat)
    (hline : (content.splitOn '\n')[i]? = some line) (hne : line ≠ [])
    (hshort : ∀ l ∈ (content.splitOn '\n').take (i + 1), byteLen l < 64 * 1024) :
    (scanLines content)[i]? = some (dropCR line) := by
  unfold scanLines
  simp only []
  rw [List.getElem?_map]
  by_cases hlast : (content.splitOn '\n').getLast? = some []
  · rw [if_pos hlast]
    have hsplit := List.dropLast_append_getLast? [] hlast
    have hlt : i < (content.splitOn '\n').dropLast.length := by
      by_contra hge
      rw [← hsplit] at hline
      rw [List.getElem?_append_right (by omega)] at hline
      cases hk : i - (content.splitOn '\n').dropLast.length with
      | zero =>
        rw [hk] at hline
        simp only [List.getElem?_cons_zero, Option.some.injEq] at hline
        exact hne hline.symm
      | succ k =>
        rw [hk] at hline
        simp at hline
    have hline2 : (content.splitOn '\n').dropLast[i]? = some line := by
      rw [← hsplit, List.getElem?_append_left hlt] at hline
      exact hline
    rw [takeWhile_getElem?, hline2]
    · rfl
    · intro l hl
      have hl2 : l ∈ (content.splitOn '\n').take (i + 1) := by
        have hpre : (content.splitOn '\n').dropLast.take (i + 1) <+:
            (content.splitOn '\n').take (i + 1) := by
          rw [List.dropLast_eq_take, List.take_take]
          exact List.take_prefix_take_left _ (Nat.min_le_left _ _)
        exact hpre.subset hl
      exact decide_eq_true (hshort l hl2)
  · rw [if_neg hlast, takeWhile_getElem?, hline]
    · rfl
    · intro l hl
      exact decide_eq_true (hshort l hl)

theorem fileContainsHeader_of_line (fs : FileSys) (filePath packageName typeName : GoString)
    (content line : GoString) (i : Nat) (hfile : fs.files filePath = some content)
    (hline : (content.splitOn '\n')[i]? = some line)
    (hhdr : headerText packageName typeName <:+: line)
    (hshort : ∀ l ∈ (content.splitOn '\n').take (i + 1), byteLen l < 64 * 1024) :
    fileContainsHeader fs filePath packageName typeName = true := by
  unfold fileContainsHeader
  rw [hfile]
  have hne : line ≠ [] := by
    intro hnil
    rw [hnil] at hhdr
    have h0 := List.eq_nil_of_infix_nil hhdr
    have hl := headerText_getLast? packageName typeName
    rw [h0] at hl
    simp at hl
  have hmem := List.getElem?_mem (scanLines_getElem? content line i hline hne hshort)
  exact List.any_eq_true.mpr ⟨dropCR line, hmem,
    (Contains_iff_occurs _ _).mpr
      (infix_dropCR _ _ (headerText_getLast? packageName typeName) hhdr)⟩

theorem GenerateEnum_of_guard (tmpl : Template) (fs : FileSys)
    (outputDir packageName : GoString) (enum : Enum)
    (h : fileContainsHeader fs (destinationPath outputDir enum.TypeName) packageName
      enum.TypeName = true) :
    GenerateEnum tmpl fs outputDir packageName enum = (fs, none) := by
  unfold GenerateEnum
  simp only [h, if_true]

/-! ## Lemmas on the second call of `GenerateEnum` -/

theorem not_mem_of_mem_splitOn (c : Char) (s piece : GoString) (h : piece ∈ s.splitOn c) :
    c ∉ piece := by
  induction s generalizing piece with
  | nil =>
    have hp : piece = [] := by simpa [List.splitOn] using h
    rw [hp]
    exact List.not_mem_nil c
  | cons x t ih =>
    have hne : t.splitOn c ≠ [] := List.splitOnP_ne_nil _ _
    rw [List.splitOn, List.splitOnP_cons] at h
    by_cases hx : x = c
    · have h2 : (x == c) = true := by simpa using hx
      rw [h2, if_pos rfl] at h
      rcases List.mem_cons.mp h with h1 | h1
      · rw [h1]
        exact List.not_mem_nil c
      · exact ih piece h1
    · have h2 : (x == c) = false := by simpa using hx
      rw [h2] at h
      simp only [Bool.false_eq_true, if_false] at h
      cases hs : t.splitOn c with
      | nil => exact absurd hs hne
      | cons p ps =>
        rw [List.splitOn] at hs
        rw [hs] at h
        have hmem : ∀ q ∈ p :: ps, c ∉ q := by
          intro q hq
          apply ih
          rw [List.splitOn, hs]
          exact hq
        rcases List.mem_cons.mp h with h1 | h1
        · rw [h1]
          intro hc
          rcases List.mem_cons.mp hc with h3 | h3
          · exact hx h3.symm
          · exact hmem p (List.mem_cons_self _ _) h3
        · exact hmem piece (List.mem_cons_of_mem _ h1)

/-- No rune that a run of the table maps to is mapped by a run of the table. -/
theorem run_image_not_covered (r q : Nat × Nat × Nat × Nat) (hr : r ∈ lowerRuns)
    (hq : q ∈ lowerRuns) (n : Nat) (hc : runCovers r n = true) :
    runCovers q (r.2.2.2 + (n - r.1)) = false := by
  have hap := List.all_eq_true.mp (List.all_eq_true.mp lowerRuns_apart r hr) q hq
  have hok := List.all_eq_true.mp lowerRuns_ok r hr
  unfold runOk at hok
  simp only [Bool.and_eq_true, decide_eq_true_eq] at hok
  obtain ⟨⟨⟨hstep, _, _, _, _⟩, _⟩, _⟩ := hok
  unfold runApart at hap
  have hap2 := of_decide_eq_true hap
  unfold runCovers at hc ⊢
  have hc2 := of_decide_eq_true hc
  apply decide_eq_false
  obtain ⟨lo, hi, step, t⟩ := r
  obtain ⟨qlo, qhi, qstep, qt⟩ := q
  simp only at hap2 hc2 hstep ⊢
  rintro ⟨h1, h2, h3⟩
  rcases hap2 with h | h | ⟨hq2, hr2, hpar⟩
  · omega
  · omega
  · subst hq2
    rcases hr2 with hr2 | hr2
    · subst hr2
      omega
    · omega

theorem toLowerRune_idem (c : Char) : toLowerRune (toLowerRune c) = toLowerRune c := by
  by_cases h : c.toNat < 128
  · have hlow : toLowerRune c =
        if 65 ≤ c.toNat ∧ c.toNat ≤ 90 then Char.ofNat (c.toNat + 32) else c := by
      unfold toLowerRune
      rw [if_pos h]
    by_cases hup : 65 ≤ c.toNat ∧ c.toNat ≤ 90
    · rw [hlow, if_pos hup]
      have hn : (Char.ofNat (c.toNat + 32)).toNat = c.toNat + 32 :=
        toNat_ofNat_valid _ (by omega)
      unfold toLowerRune
      rw [hn, if_pos (by omega), if_neg (by omega)]
    · rw [hlow, if_neg hup, hlow, if_neg hup]
  · rcases toLowerRune_outside c h with ⟨hsame, _⟩ | ⟨r, hr, hc, hlow⟩
    · rw [hsame, hsame]
    · obtain ⟨hn, _, h97, _, _⟩ := run_image r hr c.toNat hc
      rw [hlow]
      by_cases hm : (Char.ofNat (r.2.2.2 + (c.toNat - r.1))).toNat < 128
      · unfold toLowerRune
        rw [if_pos hm, if_neg (by omega)]
      · rcases toLowerRune_outside _ hm with ⟨hsame, _⟩ | ⟨q, hq, hqc, _⟩
        · exact hsame
        · rw [hn, run_image_not_covered r q hr hq c.toNat hc] at hqc
          exact absurd hqc (by decide)

theorem toLowerRune_eq_slash (c : Char) (h : toLowerRune c = '/') : c = '/' := by
  by_cases hc : c.toNat < 128
  · unfold toLowerRune at h
    rw [if_pos hc] at h
    split at h
    · rename_i hup
      exfalso
      have h2 : (Char.ofNat (c.toNat + 32)).toNat = '/'.toNat := by rw [h]
      rw [toNat_ofNat_valid _ (by omega)] at h2
      have h3 : '/'.toNat = 47 := rfl
      omega
    · exact h
  · rcases toLowerRune_outside c hc with ⟨hsame, _⟩ | ⟨r, hr, hcov, hlow⟩
    · rw [← hsame]
      exact h
    · exfalso
      obtain ⟨hn, _, h97, _, _⟩ := run_image r hr c.toNat hcov
      rw [hlow] at h
      rw [h] at hn
      have h3 : '/'.toNat = 47 := rfl
      omega

theorem toLowerRune_of_sameRune (a b : Char) (h : sameRuneUpToCase a b = true) :
    toLowerRune a = toLowerRune b := by
  unfold sameRuneUpToCase at h
  simp only [Bool.or_eq_true, beq_iff_eq] at h
  rcases h with (hab | hab) | hab
  · rw [hab]
  · rw [← hab, toLowerRune_idem]
  · rw [← hab, toLowerRune_idem]

theorem ToLower_of_sameUpToCase (s t : GoString) (h : sameUpToCase s t = true) :
    ToLower s = ToLower t := by
  unfold ToLower
  induction s generalizing t with
  | nil =>
    cases t with
    | nil => rfl
    | cons b t => simp [sameUpToCase] at h
  | cons a s ih =>
    cases t with
    | nil => simp [sameUpToCase] at h
    | cons b t =>
      simp only [sameUpToCase, Bool.and_eq_true] at h
      rw [List.map_cons, List.map_cons, toLowerRune_of_sameRune a b h.1, ih t h.2]

theorem slash_not_mem_TrimSpace_ToLower (t : GoString) (h : '/' ∉ t) :
    '/' ∉ TrimSpace (ToLower t) := by
  intro hmem
  have h1 : '/' ∈ ToLower t := by
    unfold TrimSpace at hmem
    exact (List.dropWhile_suffix _).subset ((List.rdropWhile_prefix _ _).subset hmem)
  unfold ToLower at h1
  obtain ⟨c, hc, hlow⟩ := List.mem_map.mp h1
  exact h (toLowerRune_eq_slash c hlow ▸ hc)

/-! ## Lemmas on `filepath.Clean` and on the destination path -/

theorem splitOn_append_sep (c : Char) (a b : GoString) (hb : c ∉ b) :
    (a ++ c :: b).splitOn c = a.splitOn c ++ [b] := by
  induction a with
  | nil =>
    have h1 := splitOn_append_cons c [] b (List.not_mem_nil c)
    rw [splitOn_of_not_mem c b hb] at h1
    exact h1
  | cons x t ih =>
    have hne : t.splitOn c ≠ [] := List.splitOnP_ne_nil _ _
    rw [List.cons_append]
    simp only [List.splitOn] at ih hne ⊢
    rw [List.splitOnP_cons, List.splitOnP_cons, ih]
    by_cases hx : x = c
    · have h2 : (x == c) = true := by simpa using hx
      simp [h2]
    · have h2 : (x == c) = false := by simpa using hx
      simp only [h2, Bool.false_eq_true, if_false]
      cases hs : List.splitOnP (fun y => y == c) t with
      | nil => exact absurd hs hne
      | cons p ps => rfl

theorem cleanElems_concat (rooted : Bool) (es kept : List GoString) (name : GoString)
    (h0 : name ≠ []) (h1 : name ≠ ".".toList) (h2 : name ≠ "..".toList) :
    cleanElems rooted (es ++ [name]) kept = cleanElems rooted es kept ++ [name] := by
  induction es generalizing kept with
  | nil =>
    have h1' : name ≠ ['.'] := h1
    have h2' : name ≠ ['.', '.'] := h2
    simp [cleanElems, h0, h1', h2']
  | cons e es ih =>
    rw [List.cons_append]
    simp only [cleanElems]
    split
    · exact ih kept
    · split
      · cases kept with
        | nil =>
          simp only []
          split
          · exact ih []
          · exact ih [e]
        | cons top below =>
          simp only []
          split
          · exact ih _
          · exact ih _
      · exact ih _

/-- The elements that `cleanElems` yields are kept ones or elements of the path
that are neither empty nor `.`. -/
theorem cleanElems_mem (rooted : Bool) (es kept : List GoString) (x : GoString)
    (h : x ∈ cleanElems rooted es kept) :
    x ∈ kept ∨ (x ∈ es ∧ x ≠ [] ∧ x ≠ ".".toList) := by
  induction es generalizing kept with
  | nil =>
    simp only [cleanElems] at h
    exact Or.inl (List.mem_reverse.mp h)
  | cons e es ih =>
    have lift : (x ∈ es ∧ x ≠ [] ∧ x ≠ ".".toList) →
        (x ∈ e :: es ∧ x ≠ [] ∧ x ≠ ".".toList) :=
      fun hx => ⟨List.mem_cons_of_mem _ hx.1, hx.2⟩
    have step : ∀ k : List GoString, (∀ y ∈ k, y ∈ kept ∨ (y = e ∧ e ≠ [] ∧ e ≠ ".".toList)) →
        x ∈ cleanElems rooted es k → x ∈ kept ∨ (x ∈ e :: es ∧ x ≠ [] ∧ x ≠ ".".toList) := by
      intro k hk hx
      rcases ih k hx with h1 | h1
      · rcases hk x h1 with h2 | ⟨h2, h3, h4⟩
        · exact Or.inl h2
        · exact Or.inr ⟨h2 ▸ List.mem_cons_self _ _, h2 ▸ h3, h2 ▸ h4⟩
      · exact Or.inr (lift h1)
    simp only [cleanElems] at h
    split at h
    · exact step kept (fun y hy => Or.inl hy) h
    · rename_i hne
      have he0 : e ≠ [] := fun h0 => hne (Or.inl h0)
      have he1 : e ≠ ".".toList := fun h0 => hne (Or.inr h0)
      split at h
      · cases kept with
        | nil =>
          simp only [] at h
          split at h
          · exact step [] (fun y hy => absurd hy (List.not_mem_nil y)) h
          · refine step [e] (fun y hy => Or.inr ⟨List.mem_singleton.mp hy, he0, he1⟩) h
        | cons top below =>
          simp only [] at h
          split at h
          · refine step (e :: top :: below) (fun y hy => ?_) h
            rcases List.mem_cons.mp hy with h1 | h1
            · exact Or.inr ⟨h1, he0, he1⟩
            · exact Or.inl h1
          · exact step below (fun y hy => Or.inl (List.mem_cons_of_mem _ hy)) h
      · refine step (e :: kept) (fun y hy => ?_) h
        rcases List.mem_cons.mp hy with h1 | h1
        · exact Or.inr ⟨h1, he0, he1⟩
        · exact Or.inl h1

theorem intercalate_cons_cons (sep a b : GoString) (l : List GoString) :
    sep.intercalate (a :: b :: l) = a ++ sep ++ sep.intercalate (b :: l) := by
  simp [List.intercalate, List.intersperse]

theorem intercalate_concat (sep name : GoString) (xs : List GoString) (hne : xs ≠ []) :
    sep.intercalate (xs ++ [name]) = sep.intercalate xs ++ sep ++ name := by
  induction xs with
  | nil => exact absurd rfl hne
  | cons a l ih =>
    cases l with
    | nil => simp [List.intercalate, List.intersperse]
    | cons b l =>
      rw [List.cons_append, List.cons_append, intercalate_cons_cons, intercalate_cons_cons,
        ← List.cons_append, ih (List.cons_ne_nil _ _)]
      simp [List.append_assoc]

theorem intercalate_ne (xs : List GoString) (hne : xs ≠ [])
    (hx : ∀ x ∈ xs, x ≠ [] ∧ x ≠ ".".toList ∧ '/' ∉ x) :
    "/".toList.intercalate xs ≠ [] ∧ "/".toList.intercalate xs ≠ ".".toList ∧
      "/".toList.intercalate xs ≠ "/".toList := by
  cases xs with
  | nil => exact absurd rfl hne
  | cons a l =>
    have ha := hx a (List.mem_cons_self _ _)
    cases l with
    | nil =>
      have h1 : "/".toList.intercalate [a] = a := by simp [List.intercalate, List.intersperse]
      rw [h1]
      refine ⟨ha.1, ha.2.1, ?_⟩
      intro hs
      exact ha.2.2 (hs ▸ List.mem_singleton_self _)
    | cons b l =>
      rw [intercalate_cons_cons]
      have hlen : 2 ≤ (a ++ "/".toList ++ "/".toList.intercalate (b :: l)).length := by
        have h0 : 1 ≤ a.length := List.length_pos.mpr ha.1
        rw [List.length_append, List.length_append]
        have h1 : "/".toList.length = 1 := rfl
        omega
      refine ⟨?_, ?_, ?_⟩ <;> intro h <;> rw [h] at hlen <;> exact absurd hlen (by decide)

/-- `filepath.Clean` on a path that ends in a separator and a file name: the
cleaned path before the separator, a separator unless that is the root or the
current directory, and the file name. -/
theorem Clean_append_name (dir name : GoString) (hd : dir ≠ []) (hn : '/' ∉ name)
    (h0 : name ≠ []) (h1 : name ≠ ".".toList) (h2 : name ≠ "..".toList) :
    Clean (dir ++ '/' :: name) =
      if Clean dir = ".".toList then name
      else if Clean dir = "/".toList then '/' :: name
      else Clean dir ++ '/' :: name := by
  have hhead : (dir ++ '/' :: name).head? = dir.head? := by
    cases dir with
    | nil => exact absurd rfl hd
    | cons c rest => rfl
  have hxs : ∀ x ∈ cleanElems (decide (dir.head? = some '/')) (dir.splitOn '/') [],
      x ≠ [] ∧ x ≠ ".".toList ∧ '/' ∉ x := by
    intro x hx
    rcases cleanElems_mem _ _ _ x hx with h | h
    · exact absurd h (List.not_mem_nil x)
    · exact ⟨h.2.1, h.2.2, not_mem_of_mem_splitOn '/' dir x h.1⟩
  unfold Clean
  simp only [hhead, splitOn_append_sep '/' dir name hn, cleanElems_concat _ _ _ name h0 h1 h2]
  generalize cleanElems (decide (dir.head? = some '/')) (dir.splitOn '/') [] = xs at hxs
  have h1' : name ≠ ['.'] := h1
  by_cases hnil : xs = []
  · subst hnil
    by_cases hr : dir.head? = some '/'
    · simp [hr, List.intercalate]
    · simp [hr, List.intercalate, h0, h1']
  · obtain ⟨hi0, hi1, hi2⟩ := intercalate_ne xs hnil hxs
    have hi0' : ['/'].intercalate xs ≠ [] := hi0
    have hi1' : ['/'].intercalate xs ≠ ['.'] := hi1
    have hi2' : ['/'].intercalate xs ≠ ['/'] := hi2
    rw [intercalate_concat _ _ _ hnil]
    by_cases hr : dir.head? = some '/'
    · simp [hr, hi0']
    · simp [hr, hi0', hi1', hi2']

theorem enumFileName_ne (t : GoString) :
    t ++ "_enum.go".toList ≠ [] ∧ t ++ "_enum.go".toList ≠ ".".toList ∧
      t ++ "_enum.go".toList ≠ "..".toList := by
  have hlen : 8 ≤ (t ++ "_enum.go".toList).length := by
    rw [List.length_append]
    exact Nat.le_add_left _ _
  refine ⟨?_, ?_, ?_⟩ <;> intro h <;> rw [h] at hlen <;> exact absurd hlen (by decide)

theorem Clean_name (name : GoString) (hn : '/' ∉ name)
    (h0 : name ≠ []) (h1 : name ≠ ".".toList) (h2 : name ≠ "..".toList) :
    Clean name = name := by
  have hhead : ¬ name.head? = some '/' := by
    cases name with
    | nil => exact absurd rfl h0
    | cons c rest =>
      intro hc
      simp only [List.head?_cons, Option.some.injEq] at hc
      exact hn (hc ▸ List.mem_cons_self _ _)
  have h1' : name ≠ ['.'] := h1
  have h2' : name ≠ ['.', '.'] := h2
  unfold Clean
  simp [splitOn_of_not_mem '/' name hn, hhead, cleanElems, h0, h1', h2', List.intercalate]

theorem Join_name (dir name : GoString) (hn : '/' ∉ name)
    (h0 : name ≠ []) (h1 : name ≠ ".".toList) (h2 : name ≠ "..".toList) :
    Join dir name =
      if Clean dir = ".".toList then name
      else if Clean dir = "/".toList then '/' :: name
      else Clean dir ++ '/' :: name := by
  unfold Join
  by_cases hd : dir = []
  · subst hd
    have hc : Clean [] = ".".toList := by decide
    rw [if_neg (by simp), if_pos h0, if_pos hc]
    exact Clean_name name hn h0 h1 h2
  · rw [if_pos hd]
    exact Clean_append_name dir name hd hn h0 h1 h2

theorem destinationPath_explicit (outputDir typeName : GoString) (h : '/' ∉ typeName) :
    destinationPath outputDir typeName =
      if Clean outputDir = ".".toList then TrimSpace (ToLower typeName) ++ "_enum.go".toList
      else if Clean outputDir = "/".toList then
        '/' :: (TrimSpace (ToLower typeName) ++ "_enum.go".toList)
      else Clean outputDir ++ '/' :: (TrimSpace (ToLower typeName) ++ "_enum.go".toList) := by
  unfold destinationPath
  have hne := enumFileName_ne (TrimSpace (ToLower typeName))
  apply Join_name _ _ _ hne.1 hne.2.1 hne.2.2
  intro hmem
  rcases List.mem_append.mp hmem with h1 | h2
  · exact slash_not_mem_TrimSpace_ToLower _ h h1
  · exact absurd h2 (by decide)

/-- Two type names without separator have the same destination path exactly when
their trimmed lower-case forms are equal. -/
theorem destinationPath_eq_iff (outputDir s t : GoString) (hs : '/' ∉ s) (ht : '/' ∉ t) :
    destinationPath outputDir s = destinationPath outputDir t ↔
      TrimSpace (ToLower s) = TrimSpace (ToLower t) := by
  rw [destinationPath_explicit _ _ hs, destinationPath_explicit _ _ ht]
  by_cases h1 : Clean outputDir = ".".toList
  · rw [if_pos h1, if_pos h1]
    exact List.append_left_inj _
  · rw [if_neg h1, if_neg h1]
    by_cases h2 : Clean outputDir = "/".toList
    · rw [if_pos h2, if_pos h2, List.cons_inj_right]
      exact List.append_left_inj _
    · rw [if_neg h2, if_neg h2, List.append_right_inj, List.cons_inj_right]
      exact List.append_left_inj _

theorem GenerateEnum_files_other (tmpl : Template) (fs : FileSys)
    (outputDir packageName : GoString) (enum : Enum) (p : GoString)
    (hp : p ≠ destinationPath outputDir enum.TypeName) :
    (GenerateEnum tmpl fs outputDir packageName enum).1.files p = fs.files p := by
  unfold GenerateEnum
  simp only []
  split
  · rfl
  · split
    · rfl
    · split
      · simp [FileSys.write, hp]
      · simp [FileSys.write, hp]

theorem fileContainsHeader_congr (fs fs2 : FileSys) (p packageName typeName : GoString)
    (h : fs2.files p = fs.files p) :
    fileContainsHeader fs2 p packageName typeName = fileContainsHeader fs p packageName typeName := by
  unfold fileContainsHeader
  rw [h]

theorem GenerateEnum_local (tmpl : Template) (fs fs2 : FileSys)
    (outputDir packageName : GoString) (enum : Enum)
    (hf : fs2.files (destinationPath outputDir enum.TypeName) =
      fs.files (destinationPath outputDir enum.TypeName))
    (hc : fs2.createError (destinationPath outputDir enum.TypeName) =
      fs.createError (destinationPath outputDir enum.TypeName)) :
    (GenerateEnum tmpl fs2 outputDir packageName enum).2 =
        (GenerateEnum tmpl fs outputDir packageName enum).2 ∧
      (GenerateEnum tmpl fs2 outputDir packageName enum).1.files
          (destinationPath outputDir enum.TypeName) =
        (GenerateEnum tmpl fs outputDir packageName enum).1.files
          (destinationPath outputDir enum.TypeName) := by
  unfold GenerateEnum
  simp only []
  rw [fileContainsHeader_congr fs fs2 _ packageName enum.TypeName hf, hc]
  split
  · exact ⟨rfl, hf⟩
  · split
    · exact ⟨rfl, hf⟩
    · split
      · simp [FileSys.write]
      · simp [FileSys.write]

/-! ## The claims on the generator -/

/-- C11, as the claim states it, fails: the destination file `out/color_enum.go`
holds a line with the text `mypkg adds an enum value and parsing functions for the
enum type Color.`, the guard does not find its header in it, and `GenerateEnum`
truncates the file and renders into it; on a read-only file of the same text it
returns the error of `os.Create`. -/
theorem GenerateEnum_guard_needs_package_start :
    (scanLines staleText.toList).any
        (fun line => Contains line (claimedHeaderText "mypkg".toList "Color".toList)) = true ∧
      destinationPath "out".toList colorEnum.TypeName = "out/color_enum.go".toList ∧
      (oneFileSys "out/color_enum.go" staleText).files "out/color_enum.go".toList =
        some staleText.toList ∧
      fileContainsHeader (oneFileSys "out/color_enum.go" staleText) "out/color_enum.go".toList
        "mypkg".toList "Color".toList = false ∧
      (GenerateEnum plainTemplate (oneFileSys "out/color_enum.go" staleText) "out".toList
        "mypkg".toList colorEnum).1.files "out/color_enum.go".toList =
        some ("// Package mypkg adds an enum value and parsing functions for the enum " ++
          "type Color.\npackage mypkg\n").toList ∧
      (GenerateEnum plainTemplate (readOnlyFileSys "out/color_enum.go" staleText) "out".toList
        "mypkg".toList colorEnum).2 = some "permission denied" := by
  decide

/-- C11, amended: for every output directory, module name and model, and whatever
the template, if the destination file can be opened and one of its lines contains
the header `// Package <module-name> adds an enum value and parsing functions for
the enum type <TypeName>.`, this line and the lines before it being shorter than
the 64 KiB buffer of the line scanner, then `GenerateEnum` returns no error and
returns the file system as it was: nothing is created or truncated. -/
theorem GenerateEnum_skips (tmpl : Template) (fs : FileSys)
    (outputDir packageName : GoString) (enum : Enum) (content line : GoString) (i : Nat)
    (hfile : fs.files (destinationPath outputDir enum.TypeName) = some content)
    (hline : (content.splitOn '\n')[i]? = some line)
    (hhdr : headerText packageName enum.TypeName <:+: line)
    (hshort : ∀ l ∈ (content.splitOn '\n').take (i + 1), byteLen l < 64 * 1024) :
    GenerateEnum tmpl fs outputDir packageName enum = (fs, none) :=
  GenerateEnum_of_guard tmpl fs outputDir packageName enum
    (fileContainsHeader_of_line fs _ packageName enum.TypeName content line i hfile hline
      hhdr hshort)

/-- Scenario C: the destination file holds the header on its second line. For the
type name `Éclair` the destination file is `out/éclair_enum.go`: with the header
there the call is skipped, and with the header in `out/Éclair_enum.go` the call
renders `out/éclair_enum.go`. -/
theorem GenerateEnum_skips_witness :
    GenerateEnum plainTemplate (oneFileSys "out/color_enum.go" generatedText) "out".toList
        "mypkg".toList colorEnum =
      (oneFileSys "out/color_enum.go" generatedText, none) ∧
      destinationPath "out".toList eclairEnum.TypeName = "out/éclair_enum.go".toList ∧
      GenerateEnum plainTemplate (oneFileSys "out/éclair_enum.go" eclairText) "out".toList
          "mypkg".toList eclairEnum =
        (oneFileSys "out/éclair_enum.go" eclairText, none) ∧
      (GenerateEnum plainTemplate (oneFileSys "out/Éclair_enum.go" eclairText) "out".toList
          "mypkg".toList eclairEnum).1.files "out/éclair_enum.go".toList =
        some ("// Package mypkg adds an enum value and parsing functions for the enum " ++
          "type Éclair.\npackage mypkg\n").toList :=
  ⟨GenerateEnum_skips plainTemplate (oneFileSys "out/color_enum.go" generatedText)
      "out".toList "mypkg".toList colorEnum generatedText.toList
      ("// Package mypkg adds an enum value and parsing functions for the enum " ++
        "type Color.\r").toList 1
      (by decide) (by decide) (by decide) (by decide),
    by decide,
    GenerateEnum_skips plainTemplate (oneFileSys "out/éclair_enum.go" eclairText)
      "out".toList "mypkg".toList eclairEnum eclairText.toList
      ("// Package mypkg adds an enum value and parsing functions for the enum " ++
        "type Éclair.").toList 0
      (by decide) (by decide) (by decide) (by decide),
    by decide⟩

/-- C15: the destination path of `GenerateEnum` is `filepath.Join` of the output
directory and the lower-cased, trimmed type name followed by `_enum.go`. For a
type name without separator it is that file name in the cleaned output directory.
`GenerateEnum` renders into the file at this path, leaves the file at every other
path as it is, whatever the module name, the base type and the values, and its
result depends on the file system at this path alone. Two type names that differ
only in letter case have the same destination path; two type names without
separator have the same destination path exactly when their trimmed lower-case
forms are equal. -/
theorem GenerateEnum_destination (tmpl : Template) (fs : FileSys)
    (outputDir packageName : GoString) (enum : Enum) :
    ('/' ∉ enum.TypeName →
        destinationPath outputDir enum.TypeName =
          if Clean outputDir = ".".toList then
            TrimSpace (ToLower enum.TypeName) ++ "_enum.go".toList
          else if Clean outputDir = "/".toList then
            '/' :: (TrimSpace (ToLower enum.TypeName) ++ "_enum.go".toList)
          else Clean outputDir ++
            '/' :: (TrimSpace (ToLower enum.TypeName) ++ "_enum.go".toList)) ∧
      (fileContainsHeader fs (destinationPath outputDir enum.TypeName) packageName
          enum.TypeName = false →
        fs.createError (destinationPath outputDir enum.TypeName) = none →
        tmpl.parseError = none →
        (GenerateEnum tmpl fs outputDir packageName enum).1.files
            (destinationPath outputDir enum.TypeName) =
          some (tmpl.execute packageName enum).1) ∧
      (∀ (otherPackage : GoString) (other : Enum), other.TypeName = enum.TypeName →
        ∀ p : GoString, p ≠ destinationPath outputDir enum.TypeName →
          (GenerateEnum tmpl fs outputDir otherPackage other).1.files p = fs.files p) ∧
      (∀ fs2 : FileSys,
        fs2.files (destinationPath outputDir enum.TypeName) =
          fs.files (destinationPath outputDir enum.TypeName) →
        fs2.createError (destinationPath outputDir enum.TypeName) =
          fs.createError (destinationPath outputDir enum.TypeName) →
        (GenerateEnum tmpl fs2 outputDir packageName enum).2 =
            (GenerateEnum tmpl fs outputDir packageName enum).2 ∧
          (GenerateEnum tmpl fs2 outputDir packageName enum).1.files
              (destinationPath outputDir enum.TypeName) =
            (GenerateEnum tmpl fs outputDir packageName enum).1.files
              (destinationPath outputDir enum.TypeName)) ∧
      (∀ other : GoString, sameUpToCase enum.TypeName other = true →
        destinationPath outputDir other = destinationPath outputDir enum.TypeName) ∧
      ∀ other : GoString, '/' ∉ enum.TypeName → '/' ∉ other →
        (destinationPath outputDir other = destinationPath outputDir enum.TypeName ↔
          TrimSpace (ToLower other) = TrimSpace (ToLower enum.TypeName)) := by
  refine ⟨destinationPath_explicit outputDir enum.TypeName, ?_, ?_, ?_, ?_,
    fun other hs ht => destinationPath_eq_iff outputDir other enum.TypeName ht hs⟩
  · intro hg hc hp
    unfold GenerateEnum
    simp [hg, hc, hp, FileSys.write]
  · intro otherPackage other hname p hp
    rw [← hname] at hp
    exact GenerateEnum_files_other tmpl fs outputDir otherPackage other p hp
  · intro fs2 hf hc
    exact GenerateEnum_local tmpl fs fs2 outputDir packageName enum hf hc
  · intro other hsame
    unfold destinationPath
    rw [ToLower_of_sameUpToCase _ _ hsame]

/-- The type name `Éclair`: its file in `out` is `out/éclair_enum.go`, also for
the directory written as `./out//gen/..` and for the name written `ÉCLAIR`, and a
first call renders into this file. -/
theorem GenerateEnum_destination_witness :
    destinationPath "out".toList eclairEnum.TypeName = "out/éclair_enum.go".toList ∧
      Clean "./out//gen/..".toList = "out".toList ∧
      destinationPath "./out//gen/..".toList eclairEnum.TypeName =
        "out/éclair_enum.go".toList ∧
      sameUpToCase eclairEnum.TypeName "ÉCLAIR".toList = true ∧
      destinationPath "out".toList "ÉCLAIR".toList =
        destinationPath "out".toList eclairEnum.TypeName ∧
      (GenerateEnum plainTemplate emptyFileSys "out".toList "mypkg".toList eclairEnum).1.files
          (destinationPath "out".toList eclairEnum.TypeName) =
        some (plainTemplate.execute "mypkg".toList eclairEnum).1 :=
  ⟨by decide, by decide, by decide, by decide,
    (GenerateEnum_destination plainTemplate emptyFileSys "out".toList "mypkg".toList
      eclairEnum).2.2.2.2.1 "ÉCLAIR".toList (by decide),
    (GenerateEnum_destination plainTemplate emptyFileSys "out".toList "mypkg".toList
      eclairEnum).2.1 (by decide) rfl rfl⟩

/-- C16: `defaultFor` returns the empty string literal for `string`, `0.0` for
`float32` and `float64`, `false` for `bool`, and `0` for each of the ten integer
types. -/
theorem defaultFor_zero_values :
    defaultFor "string".toList = "\"\"".toList ∧
      defaultFor "float32".toList = "0.0".toList ∧
      defaultFor "float64".toList = "0.0".toList ∧
      defaultFor "bool".toList = "false".toList ∧
      integerTypes.map defaultFor = List.replicate 10 "0".toList := by
  decide

end GoEnum
